import Mathlib

/-!
# A chained hash table with doubling growth (`hashtable.c`)

Shallow embedding of the string-keyed, `int`-valued hash table of `hashtable.c`
and proofs of its specified properties.

Modelling conventions.

* A key is a C string: the bytes before the terminating NUL, each in `1..255`.
  `strcmp(a, b) == 0` is equality of these byte sequences.
* `unsigned int` is 32 bits wide; its arithmetic is taken modulo `2^32`.
* Whether plain `char` is signed is implementation-defined in C.  It decides
  what `*key` contributes to the hash for bytes `128..255`, so every function
  that hashes takes it as the parameter `charSigned`.
* A collision chain (nodes linked through `next`) is the list of its nodes,
  head first.  The bucket array is a list of chains; `size` is kept as a
  separate field, as in the C struct.
* `size` and `count` are C `int`s.  `size` is a natural number here, `count`
  an integer; the arithmetic on them is the mathematical one, which is what
  the C code computes as long as `2 * size` and `count + 1` fit in an `int`.
* Allocation is assumed to succeed (the code exits the process otherwise).
-/

namespace CHashTable

/-! ## Data model -/

/-- The constant `INITIAL_SIZE` (`#define INITIAL_SIZE 10`). -/
def INITIAL_SIZE : Nat := 10

/-- The constant `MULTIPLIER` (`#define MULTIPLIER 31`). -/
def MULTIPLIER : Nat := 31

/-- Number of values of an `unsigned int`: `2^32`. -/
def UINT_RANGE : Nat := 4294967296

/-- A C string: its bytes up to, not including, the terminating NUL. -/
abbrev Key : Type := { bytes : List Nat // ∀ b ∈ bytes, 0 < b ∧ b < 256 }

/-- The C `struct Node` without its `next` pointer (a chain is a list of nodes). -/
structure Node where
  key : Key
  value : Int
deriving DecidableEq

/-- The C struct `HashTable`: bucket count, entry count and the bucket array. -/
structure HashTable where
  size : Nat
  count : Int
  table : List (List Node)
deriving DecidableEq

/-- Reading `hashtable->table[i]`: the chain whose head the slot points to. -/
def bucket (table : List (List Node)) (i : Nat) : List Node :=
  table.getD i []

/-! ## The hasher -/

/-- Value of the expression `*key` for a byte `b`, promoted to `int`: the byte itself,
or `b - 256` for `b ≥ 128` where plain `char` is signed. -/
def charToInt (charSigned : Bool) (b : Nat) : Int :=
  if charSigned = true ∧ 128 ≤ b then (b : Int) - 256 else (b : Int)

/-- Conversion of an `int` to `unsigned int` (reduction modulo `2^32`). -/
def toUnsigned (i : Int) : Nat :=
  (i % (UINT_RANGE : Int)).toNat

/-- The `while (*key)` loop of `hash`, started with accumulator `hash_value`. -/
def hashLoop (charSigned : Bool) (hash_value : Nat) : List Nat → Nat
  | [] => hash_value
  | c :: key =>
    hashLoop charSigned ((hash_value * MULTIPLIER + toUnsigned (charToInt charSigned c)) % UINT_RANGE) key

/-- The function `unsigned int hash(const char* key)`. -/
def hash (charSigned : Bool) (key : Key) : Nat :=
  hashLoop charSigned 0 key.val

/-! ## Table operations -/

/-- The function `createHashTable`: `calloc` gives `INITIAL_SIZE` empty buckets. -/
def createHashTable : HashTable :=
  { size := INITIAL_SIZE, count := 0, table := List.replicate INITIAL_SIZE [] }

/-- The chain scan of `getFromHashTable`: first node whose key compares equal. -/
def findNode (key : Key) : List Node → Option Node
  | [] => none
  | node :: next => if node.key = key then some node else findNode key next

/-- The function `getFromHashTable`: the node found, or `none` for `NULL`. -/
def getFromHashTable (charSigned : Bool) (hashtable : HashTable) (key : Key) : Option Node :=
  let index := hash charSigned key % hashtable.size
  findNode key (bucket hashtable.table index)

/-- The effect of `node->value = value` on the chain that holds the node found by the
scan: the first node with the key gets the new value. -/
def setValue (key : Key) (value : Int) : List Node → List Node
  | [] => []
  | node :: next =>
    if node.key = key then { node with value := value } :: next
    else node :: setValue key value next

/-- The node loop of `resizeHashTable` for one node: prepend it to its new bucket. -/
def moveNode (charSigned : Bool) (new_size : Nat) (new_table : List (List Node)) (node : Node) :
    List (List Node) :=
  let index := hash charSigned node.key % new_size
  new_table.set index (node :: bucket new_table index)

/-- The function `resizeHashTable`: move every node of buckets `0 .. size-1`, in chain order, into a
fresh array of `new_size` empty buckets. -/
def resizeHashTable (charSigned : Bool) (hashtable : HashTable) (new_size : Nat) : HashTable :=
  let new_table : List (List Node) := List.replicate new_size []
  let new_table := (List.range hashtable.size).foldl
    (fun new_table i => (bucket hashtable.table i).foldl (moveNode charSigned new_size) new_table)
    new_table
  { size := new_size, count := hashtable.count, table := new_table }

/-- The new-key path of `insertIntoHashTable` up to `hashtable->count++`: a node owning
the key and value is linked at the head of its bucket's chain. -/
def linkNewNode (charSigned : Bool) (hashtable : HashTable) (key : Key) (value : Int) :
    HashTable :=
  let index := hash charSigned key % hashtable.size
  let node : Node := { key := key, value := value }
  { hashtable with
    table := hashtable.table.set index (node :: bucket hashtable.table index)
    count := hashtable.count + 1 }

/-- The function `insertIntoHashTable`: overwrite the value of the node found by the
lookup, or link a new node and double the bucket array once `count > size * 2`. -/
def insertIntoHashTable (charSigned : Bool) (hashtable : HashTable) (key : Key) (value : Int) :
    HashTable :=
  let index := hash charSigned key % hashtable.size
  match getFromHashTable charSigned hashtable key with
  | some _ =>
    { hashtable with
      table := hashtable.table.set index (setValue key value (bucket hashtable.table index)) }
  | none =>
    let hashtable := linkNewNode charSigned hashtable key value
    if hashtable.count > (hashtable.size : Int) * 2 then
      resizeHashTable charSigned hashtable (hashtable.size * 2)
    else hashtable

/-- The scan of `removeFromHashTable` over one chain: the chain with the first node
holding the key unlinked, or `none` when the loop ends without a match. -/
def unlinkNode (key : Key) : List Node → Option (List Node)
  | [] => none
  | node :: next =>
    if node.key = key then some next
    else (unlinkNode key next).map (fun rest => node :: rest)

/-- The function `removeFromHashTable`: unlink the first node of the bucket's chain that
holds the key and decrement `count`; nothing is written when the scan finds none. -/
def removeFromHashTable (charSigned : Bool) (hashtable : HashTable) (key : Key) : HashTable :=
  let index := hash charSigned key % hashtable.size
  match unlinkNode key (bucket hashtable.table index) with
  | some chain =>
    { hashtable with
      table := hashtable.table.set index chain
      count := hashtable.count - 1 }
  | none => hashtable

/-- The function `traverseHashTable`: the sequence of `(key, value)` arguments the callback is
called with. -/
def traverseHashTable (hashtable : HashTable) : List (Key × Int) :=
  (List.range hashtable.size).flatMap
    (fun i => (bucket hashtable.table i).map (fun node => (node.key, node.value)))

/-! ## Runs of operations -/

/-- A call a client can make on a live table. -/
inductive Op where
  | insert (key : Key) (value : Int)
  | remove (key : Key)
deriving DecidableEq

/-- One client call. -/
def applyOp (charSigned : Bool) (hashtable : HashTable) : Op → HashTable
  | Op.insert key value => insertIntoHashTable charSigned hashtable key value
  | Op.remove key => removeFromHashTable charSigned hashtable key

/-- The table reached from `createHashTable()` by a sequence of calls. -/
def runOps (charSigned : Bool) (ops : List Op) : HashTable :=
  ops.foldl (applyOp charSigned) createHashTable

/-- The key `"key1"` of the demonstration driver. -/
def key1 : Key := ⟨[107, 101, 121, 49], by decide⟩

/-- The key `"key2"` of the demonstration driver. -/
def key2 : Key := ⟨[107, 101, 121, 50], by decide⟩

/-- The key `"key3"` of the demonstration driver. -/
def key3 : Key := ⟨[107, 101, 121, 51], by decide⟩

/-! ## Invariants of the data model -/

/-- The entry nodes reachable from buckets `0 .. size-1`, in traversal order. -/
def entries (hashtable : HashTable) : List Node :=
  (List.range hashtable.size).flatMap (fun i => bucket hashtable.table i)

/-- The invariants of the data model: the bucket array has `size > 0` slots, every entry
sits in bucket `hash(key) mod size`, no chain holds a key twice, and `count` is the number
of entry nodes. -/
def Inv (charSigned : Bool) (hashtable : HashTable) : Prop :=
  0 < hashtable.size ∧
  hashtable.table.length = hashtable.size ∧
  (∀ i < hashtable.size, ∀ node ∈ bucket hashtable.table i,
    hash charSigned node.key % hashtable.size = i) ∧
  (∀ i < hashtable.size, ((bucket hashtable.table i).map Node.key).Nodup) ∧
  hashtable.count = ((entries hashtable).length : Int)

instance instDecidableInv (charSigned : Bool) (hashtable : HashTable) :
    Decidable (Inv charSigned hashtable) := by
  unfold Inv; infer_instance

/-! ## Sample inputs -/

/-- A one-byte key, the byte being `i mod 255 + 1`. -/
def sampleKey (i : Nat) : Key :=
  ⟨[i % 255 + 1], by intro b hb; simp at hb; omega⟩

/-- Inserts of `n` sample keys `0 .. n-1`, key `i` with value `i`. -/
def sampleInserts (n : Nat) : List Op :=
  (List.range n).map (fun i => Op.insert (sampleKey i) (i : Int))

/-- The calls of the demonstration driver before its `removeFromHashTable`. -/
def mainInserts : List Op :=
  [Op.insert key1 10, Op.insert key2 20, Op.insert key3 30]

/-- Insert the pairs of a list one after the other, starting from a fresh table. -/
def insertAll (charSigned : Bool) (pairs : List (Key × Int)) : HashTable :=
  pairs.foldl (fun hashtable pair => insertIntoHashTable charSigned hashtable pair.1 pair.2)
    createHashTable

/-- The pairs the inserts of `sampleInserts n` carry. -/
def samplePairs (n : Nat) : List (Key × Int) :=
  (List.range n).map (fun i => (sampleKey i, (i : Int)))

/-! ## The hash as the specification words it -/

/-- The specification's fold: `acc := (acc * 31 + b) mod 2^32` from `acc = 0`, where `b`
is the byte's value. -/
def specHash (key : Key) : Nat :=
  key.val.foldl (fun acc b => (acc * 31 + b) % 4294967296) 0

/-- The polynomial `b_1 * 31^(n-1) + ... + b_n * 31^0`, byte `b` entering as
`contribution b`. -/
def polySum (contribution : Nat → Nat) : List Nat → Nat
  | [] => 0
  | b :: rest => contribution b * 31 ^ rest.length + polySum contribution rest

/-- The specification's closed form: the polynomial in the byte values, modulo `2^32`. -/
def specPolyHash (key : Key) : Nat :=
  polySum (fun b => b) key.val % 4294967296

/-- The empty string. -/
def emptyKey : Key := ⟨[], by decide⟩

/-- The one-byte string holding byte 128. -/
def highKey : Key := ⟨[128], by decide⟩

/-! ## Bookkeeping over a run -/

/-- The keys of the insert calls of a run, in order. -/
def insertedKeys (ops : List Op) : List Key :=
  ops.filterMap (fun op => match op with
    | Op.insert key _ => some key
    | Op.remove _ => none)

/-- Number of distinct keys that appear in the insert calls. -/
def distinctInsertedKeys (ops : List Op) : Nat :=
  (insertedKeys ops).dedup.length

/-- A run's table together with counts of what its calls did. -/
structure RunLog where
  /-- the table reached -/
  table : HashTable
  /-- remove calls that found and removed an entry -/
  removed : Nat
  /-- the keys of those remove calls -/
  removedKeys : List Key
  /-- insert calls that created an entry for a key removed earlier in the run -/
  recreated : Nat

/-- One call, with its bookkeeping. -/
def logOp (charSigned : Bool) (log : RunLog) : Op → RunLog
  | Op.insert key value =>
    { log with
      table := insertIntoHashTable charSigned log.table key value
      recreated :=
        if getFromHashTable charSigned log.table key = none ∧ key ∈ log.removedKeys then
          log.recreated + 1
        else log.recreated }
  | Op.remove key =>
    if getFromHashTable charSigned log.table key = none then
      { log with table := removeFromHashTable charSigned log.table key }
    else
      { log with
        table := removeFromHashTable charSigned log.table key
        removed := log.removed + 1
        removedKeys := key :: log.removedKeys }

/-- The bookkeeping of a run from `createHashTable()`. -/
def runLog (charSigned : Bool) (ops : List Op) : RunLog :=
  ops.foldl (logOp charSigned)
    { table := createHashTable, removed := 0, removedKeys := [], recreated := 0 }

/-- Number of remove calls of the run that found and removed an entry. -/
def successfulRemoves (charSigned : Bool) (ops : List Op) : Nat :=
  (runLog charSigned ops).removed

/-- Number of insert calls of the run that created an entry for a key that an earlier
remove call of the run had removed. -/
def recreatingInserts (charSigned : Bool) (ops : List Op) : Nat :=
  (runLog charSigned ops).recreated

/-- Insert a key, remove it, insert it again. -/
def reinsertOps : List Op :=
  [Op.insert key1 10, Op.remove key1, Op.insert key1 10]

/-! ## Creation order -/

/-- One call on a table kept together with the keys of its live entries, the most
recently created entry first: an insert that finds no entry for its key creates one, a
remove destroys the entry of its key. -/
def stepCreation (charSigned : Bool) (state : HashTable × List Key) : Op → HashTable × List Key
  | Op.insert key value =>
    (insertIntoHashTable charSigned state.1 key value,
      if getFromHashTable charSigned state.1 key = none then key :: state.2 else state.2)
  | Op.remove key =>
    (removeFromHashTable charSigned state.1 key, state.2.filter (fun k => !decide (k = key)))

/-- The keys that have a live entry after a run from `createHashTable()`, the most
recently created entry first. -/
def creationOrder (charSigned : Bool) (ops : List Op) : List Key :=
  (ops.foldl (stepCreation charSigned) (createHashTable, [])).2

/-! ## Traversal with a stateful callback -/

/-- The two loops of `traverseHashTable` with the effect of the callback made explicit:
`callback state key value` is the state after one call. The table is only read. -/
def traverseWith {σ : Type} (callback : σ → Key → Int → σ) (hashtable : HashTable)
    (state : σ) : σ :=
  (List.range hashtable.size).foldl
    (fun state i =>
      (bucket hashtable.table i).foldl (fun state node => callback state node.key node.value)
        state)
    state

/-! ## Entry ages -/

/-- One call on a table kept together with the keys of its live entries, the most
recently created entry first, each with the number of resizes performed since the entry
was created. An insert that finds no entry creates one (no resize yet); when the insert
has resized the table (its size changed) every live entry, the new one included, has
seen one more resize; a remove destroys the entry of its key. -/
def stepAges (charSigned : Bool) (state : HashTable × List (Key × Nat)) :
    Op → HashTable × List (Key × Nat)
  | Op.insert key value =>
    let live :=
      if getFromHashTable charSigned state.1 key = none then (key, 0) :: state.2 else state.2
    let hashtable := insertIntoHashTable charSigned state.1 key value
    (hashtable,
      if hashtable.size = state.1.size then live
      else live.map (fun entry => (entry.1, entry.2 + 1)))
  | Op.remove key =>
    (removeFromHashTable charSigned state.1 key,
      state.2.filter (fun entry => !decide (entry.1 = key)))

/-- The live entries after a run from `createHashTable()`: their keys, the most recently
created entry first, each with the number of resizes since its entry was created. -/
def entryAges (charSigned : Bool) (ops : List Op) : List (Key × Nat) :=
  (ops.foldl (stepAges charSigned) (createHashTable, [])).2

/-- The keys of entries that have seen an even number of resizes, most recently created
first, followed by the keys of those that have seen an odd number, least recently created
first. -/
def chainOrder (ages : List (Key × Nat)) : List Key :=
  (ages.filter (fun entry => decide (entry.2 % 2 = 0))).map Prod.fst ++
    ((ages.filter (fun entry => decide (entry.2 % 2 = 1))).map Prod.fst).reverse

/-- Twenty-one inserts, the last of which resizes the table, then one more insert into
the grown table. -/
def regrownOps : List Op :=
  sampleInserts 21 ++ [Op.insert (sampleKey 40) 40]


/-! ## Chains -/

theorem findNode_some {key : Key} {chain : List Node} {node : Node}
    (h : findNode key chain = some node) : node ∈ chain ∧ node.key = key := by
  induction chain with
  | nil => simp [findNode] at h
  | cons a rest ih =>
    unfold findNode at h
    split at h
    · next hk =>
      cases h
      exact ⟨List.mem_cons_self _ _, hk⟩
    · exact ⟨List.mem_cons_of_mem _ (ih h).1, (ih h).2⟩

theorem findNode_eq_none {key : Key} {chain : List Node} :
    findNode key chain = none ↔ ∀ node ∈ chain, node.key ≠ key := by
  induction chain with
  | nil => simp [findNode]
  | cons a rest ih =>
    unfold findNode
    by_cases hk : a.key = key
    · simp [hk]
    · simp [hk, ih]

theorem findNode_of_mem {key : Key} {chain : List Node} {node : Node}
    (hnd : (chain.map Node.key).Nodup) (hm : node ∈ chain) (hk : node.key = key) :
    findNode key chain = some node := by
  induction chain with
  | nil => cases hm
  | cons a rest ih =>
    rw [List.map_cons, List.nodup_cons] at hnd
    unfold findNode
    rcases List.mem_cons.1 hm with rfl | hm
    · simp [hk]
    · have hne : a.key ≠ key := by
        intro ha
        exact hnd.1 (List.mem_map.2 ⟨node, hm, by rw [hk, ha]⟩)
      simp [hne, ih hnd.2 hm]

theorem findNode_filter_of_ne {key : Key} (p : Node → Bool) {chain : List Node}
    (hp : ∀ node ∈ chain, node.key = key → p node = true) :
    findNode key (chain.filter p) = findNode key chain := by
  induction chain with
  | nil => rfl
  | cons a rest ih =>
    have ih := ih (fun n hn => hp n (List.mem_cons_of_mem _ hn))
    by_cases hk : a.key = key
    · have := hp a (List.mem_cons_self _ _) hk
      simp [List.filter_cons, this, findNode, hk]
    · by_cases hpa : p a = true
      · simp [List.filter_cons, hpa, findNode, hk, ih]
      · simp [List.filter_cons, hpa, findNode, hk, ih]

theorem map_key_setValue (key : Key) (value : Int) (chain : List Node) :
    (setValue key value chain).map Node.key = chain.map Node.key := by
  induction chain with
  | nil => rfl
  | cons a rest ih =>
    unfold setValue
    split <;> simp [ih]

theorem findNode_setValue_self {key : Key} (value : Int) {chain : List Node}
    (h : findNode key chain ≠ none) :
    findNode key (setValue key value chain) = some { key := key, value := value } := by
  induction chain with
  | nil => simp [findNode] at h
  | cons a rest ih =>
    unfold setValue
    by_cases hk : a.key = key
    · simp [hk, findNode]
    · have : findNode key rest ≠ none := by
        simpa [findNode, hk] using h
      simp [hk, findNode, ih this]

theorem findNode_setValue_of_ne {key other : Key} (value : Int) (chain : List Node)
    (hne : other ≠ key) :
    findNode other (setValue key value chain) = findNode other chain := by
  induction chain with
  | nil => rfl
  | cons a rest ih =>
    unfold setValue
    by_cases hk : a.key = key
    · have : a.key ≠ other := by rw [hk]; exact fun h => hne h.symm
      simp [hk, findNode, this, Ne.symm hne]
    · by_cases ho : a.key = other
      · subst ho
        simp [hk, findNode]
      · simp [hk, findNode, ho, ih]

theorem setValue_eq_map {key : Key} (value : Int) {chain : List Node}
    (hnd : (chain.map Node.key).Nodup) :
    setValue key value chain =
      chain.map (fun node => if node.key = key then { node with value := value } else node) := by
  induction chain with
  | nil => rfl
  | cons a rest ih =>
    rw [List.map_cons, List.nodup_cons] at hnd
    unfold setValue
    by_cases hk : a.key = key
    · have hrest : ∀ n ∈ rest, n.key ≠ key := by
        intro n hn hnk
        exact hnd.1 (List.mem_map.2 ⟨n, hn, by rw [hnk, hk]⟩)
      have : rest.map (fun node => if node.key = key then { node with value := value } else node)
          = rest := by
        conv_rhs => rw [← List.map_id rest]
        apply List.map_congr_left
        intro n hn
        simp [hrest n hn]
      simp [hk, this]
    · simp [hk, ih hnd.2]

theorem unlinkNode_eq_none {key : Key} {chain : List Node} :
    unlinkNode key chain = none ↔ findNode key chain = none := by
  induction chain with
  | nil => simp [unlinkNode, findNode]
  | cons a rest ih =>
    unfold unlinkNode findNode
    by_cases hk : a.key = key
    · simp [hk]
    · simp [hk, ih]

theorem unlinkNode_some {key : Key} {chain rest : List Node}
    (hnd : (chain.map Node.key).Nodup) (h : unlinkNode key chain = some rest) :
    rest = chain.filter (fun node => !decide (node.key = key)) ∧
      rest.length + 1 = chain.length := by
  induction chain generalizing rest with
  | nil => simp [unlinkNode] at h
  | cons a tl ih =>
    rw [List.map_cons, List.nodup_cons] at hnd
    unfold unlinkNode at h
    by_cases hk : a.key = key
    · simp only [hk, if_true, Option.some.injEq] at h
      subst h
      have htl : ∀ n ∈ tl, n.key ≠ key := by
        intro n hn hnk
        exact hnd.1 (List.mem_map.2 ⟨n, hn, by rw [hnk, hk]⟩)
      have : tl.filter (fun node => !decide (node.key = key)) = tl := by
        apply List.filter_eq_self.2
        intro n hn
        simp [htl n hn]
      simp [List.filter_cons, hk, this]
    · simp only [hk, if_false, Option.map_eq_some'] at h
      obtain ⟨r, hr, rfl⟩ := h
      obtain ⟨h1, h2⟩ := ih hnd.2 hr
      simp [List.filter_cons, hk, ← h1, h2]

/-! ## The bucket array -/

theorem bucket_set (table : List (List Node)) (i j : Nat) (chain : List Node) :
    bucket (table.set i chain) j =
      if i = j ∧ i < table.length then chain else bucket table j := by
  unfold bucket
  rw [List.getD_eq_getElem?_getD, List.getD_eq_getElem?_getD, List.getElem?_set]
  by_cases hij : i = j
  · subst hij
    by_cases hi : i < table.length
    · simp [hi]
    · simp [hi, List.getElem?_eq_none (Nat.le_of_not_lt hi)]
  · simp [hij]

theorem bucket_set_self {table : List (List Node)} {i : Nat} (chain : List Node)
    (hi : i < table.length) : bucket (table.set i chain) i = chain := by
  simp [bucket_set, hi]

theorem bucket_set_of_ne {table : List (List Node)} {i j : Nat} (chain : List Node)
    (hij : i ≠ j) : bucket (table.set i chain) j = bucket table j := by
  simp [bucket_set, hij]

theorem bucket_replicate (n i : Nat) : bucket (List.replicate n []) i = [] := by
  unfold bucket
  rw [List.getD_eq_getElem?_getD]
  by_cases hi : i < n
  · simp [List.getElem?_replicate, hi]
  · simp [List.getElem?_replicate, hi]

theorem table_ext {t1 t2 : List (List Node)} (hlen : t1.length = t2.length)
    (h : ∀ j < t1.length, bucket t1 j = bucket t2 j) : t1 = t2 := by
  apply List.ext_getElem hlen
  intro j h1 h2
  have := h j h1
  unfold bucket at this
  rw [List.getD_eq_getElem?_getD, List.getD_eq_getElem?_getD,
    List.getElem?_eq_getElem h1, List.getElem?_eq_getElem h2] at this
  simpa using this

theorem flatMap_range_bucket (table : List (List Node)) :
    (List.range table.length).flatMap (fun i => bucket table i) = table.flatten := by
  induction table using List.reverseRecOn with
  | nil => rfl
  | append_singleton l a ih =>
    rw [List.length_append, List.length_singleton, List.range_succ, List.flatMap_append,
      List.flatten_append]
    congr 1
    · rw [← ih]
      apply List.flatMap_congr
      intro i hi
      have hi := List.mem_range.1 hi
      unfold bucket
      rw [List.getD_eq_getElem?_getD, List.getD_eq_getElem?_getD, List.getElem?_append_left hi]
    · simp [bucket, List.getD_eq_getElem?_getD]

theorem entries_eq_flatten {hashtable : HashTable}
    (hlen : hashtable.table.length = hashtable.size) :
    entries hashtable = hashtable.table.flatten := by
  unfold entries
  rw [← hlen, flatMap_range_bucket]

theorem mem_flatten_iff_bucket {table : List (List Node)} {node : Node} :
    node ∈ table.flatten ↔ ∃ i < table.length, node ∈ bucket table i := by
  rw [← flatMap_range_bucket, List.mem_flatMap]
  constructor
  · rintro ⟨i, hi, h⟩
    exact ⟨i, List.mem_range.1 hi, h⟩
  · rintro ⟨i, hi, h⟩
    exact ⟨i, List.mem_range.2 hi, h⟩

theorem length_flatten_set {table : List (List Node)} {i : Nat} (chain : List Node)
    (hi : i < table.length) :
    (table.set i chain).flatten.length + (bucket table i).length =
      table.flatten.length + chain.length := by
  induction table generalizing i with
  | nil => simp at hi
  | cons a tl ih =>
    cases i with
    | zero => simp [bucket]; omega
    | succ i =>
      have := ih (Nat.lt_of_succ_lt_succ hi)
      simp [bucket] at this ⊢
      omega

theorem flatten_set_cons_perm {table : List (List Node)} {i : Nat} (node : Node)
    (hi : i < table.length) :
    (table.set i (node :: bucket table i)).flatten.Perm (node :: table.flatten) := by
  induction table generalizing i with
  | nil => simp at hi
  | cons a tl ih =>
    cases i with
    | zero => simp [bucket]
    | succ i =>
      have := ih (Nat.lt_of_succ_lt_succ hi)
      simp only [bucket, List.set_cons_succ, List.flatten_cons, List.getD_cons_succ] at this ⊢
      exact (List.Perm.append_left a this).trans List.perm_middle

/-! ## Consequences of the invariants -/

theorem Inv.index_lt {charSigned : Bool} {hashtable : HashTable} (h : Inv charSigned hashtable)
    (key : Key) : hash charSigned key % hashtable.size < hashtable.table.length := by
  rw [h.2.1]
  exact Nat.mod_lt _ h.1

theorem Inv.mem_entries {charSigned : Bool} {hashtable : HashTable}
    (h : Inv charSigned hashtable) {node : Node} :
    node ∈ entries hashtable ↔
      node ∈ bucket hashtable.table (hash charSigned node.key % hashtable.size) := by
  rw [entries_eq_flatten h.2.1, mem_flatten_iff_bucket]
  constructor
  · rintro ⟨i, hi, hm⟩
    rw [h.2.1] at hi
    rw [h.2.2.1 i hi node hm]
    exact hm
  · intro hm
    exact ⟨_, h.index_lt node.key, hm⟩

theorem Inv.nodup_keys {charSigned : Bool} {hashtable : HashTable}
    (h : Inv charSigned hashtable) : ((entries hashtable).map Node.key).Nodup := by
  obtain ⟨_, hlen, hplaced, hnodup, _⟩ := h
  rw [entries_eq_flatten hlen, List.map_flatten, List.nodup_flatten]
  constructor
  · intro l hl
    obtain ⟨chain, hc, rfl⟩ := List.mem_map.1 hl
    obtain ⟨i, hi, rfl⟩ := List.getElem_of_mem hc
    have := hnodup i (hlen ▸ hi)
    simpa [bucket, List.getD_eq_getElem?_getD, List.getElem?_eq_getElem hi] using this
  · rw [List.pairwise_map, List.pairwise_iff_getElem]
    intro i j hi hj hij
    rw [List.disjoint_left]
    intro key h1 h2
    obtain ⟨n1, hn1, rfl⟩ := List.mem_map.1 h1
    obtain ⟨n2, hn2, hk⟩ := List.mem_map.1 h2
    have e1 := hplaced i (hlen ▸ hi) n1 (by
      simpa [bucket, List.getD_eq_getElem?_getD, List.getElem?_eq_getElem hi] using hn1)
    have e2 := hplaced j (hlen ▸ hj) n2 (by
      simpa [bucket, List.getD_eq_getElem?_getD, List.getElem?_eq_getElem hj] using hn2)
    rw [hk] at e2
    omega

theorem Inv.get_eq_some {charSigned : Bool} {hashtable : HashTable}
    (h : Inv charSigned hashtable) {key : Key} {node : Node} :
    getFromHashTable charSigned hashtable key = some node ↔
      node ∈ entries hashtable ∧ node.key = key := by
  unfold getFromHashTable
  constructor
  · intro hf
    obtain ⟨hm, hk⟩ := findNode_some hf
    refine ⟨?_, hk⟩
    rw [h.mem_entries, hk]
    exact hm
  · rintro ⟨hm, hk⟩
    rw [h.mem_entries, hk] at hm
    exact findNode_of_mem (h.2.2.2.1 _ (Nat.mod_lt _ h.1)) hm hk

theorem Inv.get_eq_none {charSigned : Bool} {hashtable : HashTable}
    (h : Inv charSigned hashtable) {key : Key} :
    getFromHashTable charSigned hashtable key = none ↔
      ∀ node ∈ entries hashtable, node.key ≠ key := by
  constructor
  · intro hn node hm hk
    have := h.get_eq_some.2 ⟨hm, hk⟩
    rw [hn] at this
    cases this
  · intro hall
    cases hg : getFromHashTable charSigned hashtable key with
    | none => rfl
    | some node =>
      obtain ⟨hm, hk⟩ := h.get_eq_some.1 hg
      exact absurd hk (hall node hm)

/-! ## Resize -/

theorem length_moveNode (charSigned : Bool) (new_size : Nat) (new_table : List (List Node))
    (node : Node) : (moveNode charSigned new_size new_table node).length = new_table.length := by
  simp [moveNode]

theorem length_foldl_moveNode (charSigned : Bool) (new_size : Nat) (nodes : List Node)
    (new_table : List (List Node)) :
    (nodes.foldl (moveNode charSigned new_size) new_table).length = new_table.length := by
  induction nodes generalizing new_table with
  | nil => rfl
  | cons a tl ih => rw [List.foldl_cons, ih, length_moveNode]

theorem bucket_foldl_moveNode (charSigned : Bool) {new_size : Nat} (nodes : List Node)
    {new_table : List (List Node)} (hlen : new_table.length = new_size) {j : Nat}
    (hj : j < new_size) :
    bucket (nodes.foldl (moveNode charSigned new_size) new_table) j =
      (nodes.filter (fun node => decide (hash charSigned node.key % new_size = j))).reverse
        ++ bucket new_table j := by
  induction nodes generalizing new_table with
  | nil => simp
  | cons a tl ih =>
    rw [List.foldl_cons, ih (by rw [length_moveNode, hlen])]
    have hidx : hash charSigned a.key % new_size < new_table.length := by
      rw [hlen]; exact Nat.mod_lt _ (Nat.lt_of_le_of_lt (Nat.zero_le _) hj)
    by_cases hk : hash charSigned a.key % new_size = j
    · subst hk
      simp [moveNode, bucket_set_self _ hidx, List.filter_cons]
    · simp [moveNode, bucket_set_of_ne _ hk, List.filter_cons, hk]

theorem foldl_flatMap_chains {α β γ : Type} (f : β → α → β) (g : γ → List α) (l : List γ)
    (init : β) :
    l.foldl (fun acc i => (g i).foldl f acc) init = (l.flatMap g).foldl f init := by
  induction l generalizing init with
  | nil => rfl
  | cons a tl ih => simp [List.flatMap_cons, List.foldl_append, ih]

theorem resize_table_eq (charSigned : Bool) (hashtable : HashTable) (new_size : Nat) :
    (resizeHashTable charSigned hashtable new_size).table =
      (entries hashtable).foldl (moveNode charSigned new_size) (List.replicate new_size []) := by
  unfold resizeHashTable entries
  exact foldl_flatMap_chains _ _ _ _

theorem length_resize_table (charSigned : Bool) (hashtable : HashTable) (new_size : Nat) :
    (resizeHashTable charSigned hashtable new_size).table.length = new_size := by
  rw [resize_table_eq, length_foldl_moveNode, List.length_replicate]

theorem bucket_resize (charSigned : Bool) (hashtable : HashTable) {new_size j : Nat}
    (hj : j < new_size) :
    bucket (resizeHashTable charSigned hashtable new_size).table j =
      ((entries hashtable).filter
        (fun node => decide (hash charSigned node.key % new_size = j))).reverse := by
  rw [resize_table_eq, bucket_foldl_moveNode charSigned _ (List.length_replicate _ _) hj,
    bucket_replicate, List.append_nil]

theorem flatten_foldl_moveNode_perm (charSigned : Bool) {new_size : Nat} (hpos : 0 < new_size)
    (nodes : List Node) {new_table : List (List Node)} (hlen : new_table.length = new_size) :
    (nodes.foldl (moveNode charSigned new_size) new_table).flatten.Perm
      (nodes ++ new_table.flatten) := by
  induction nodes generalizing new_table with
  | nil => simp
  | cons a tl ih =>
    rw [List.foldl_cons]
    refine (ih (by rw [length_moveNode, hlen])).trans ?_
    have hidx : hash charSigned a.key % new_size < new_table.length := by
      rw [hlen]; exact Nat.mod_lt _ hpos
    have := flatten_set_cons_perm a hidx
    refine (List.Perm.append_left tl this).trans ?_
    simp

theorem entries_resize_perm (charSigned : Bool) (hashtable : HashTable) {new_size : Nat}
    (hpos : 0 < new_size) :
    (entries (resizeHashTable charSigned hashtable new_size)).Perm (entries hashtable) := by
  have hlen := length_resize_table charSigned hashtable new_size
  rw [entries_eq_flatten (by rw [hlen]; rfl), resize_table_eq]
  simpa using flatten_foldl_moveNode_perm charSigned hpos (entries hashtable)
    (List.length_replicate new_size ([] : List Node))

theorem resize_inv {charSigned : Bool} {hashtable : HashTable} (h : Inv charSigned hashtable)
    {new_size : Nat} (hpos : 0 < new_size) :
    Inv charSigned (resizeHashTable charSigned hashtable new_size) := by
  refine ⟨hpos, length_resize_table _ _ _, ?_, ?_, ?_⟩
  · intro i hi node hm
    change i < new_size at hi
    rw [bucket_resize _ _ hi] at hm
    simpa using (List.mem_filter.1 (List.mem_reverse.1 hm)).2
  · intro i hi
    change i < new_size at hi
    rw [bucket_resize _ _ hi, List.map_reverse, List.nodup_reverse]
    exact (h.nodup_keys).sublist (List.Sublist.map _ (List.filter_sublist _))
  · change hashtable.count = _
    rw [(entries_resize_perm charSigned hashtable hpos).length_eq]
    exact h.2.2.2.2

theorem get_resize {charSigned : Bool} {hashtable : HashTable} (h : Inv charSigned hashtable)
    {new_size : Nat} (hpos : 0 < new_size) (key : Key) :
    getFromHashTable charSigned (resizeHashTable charSigned hashtable new_size) key =
      getFromHashTable charSigned hashtable key := by
  have h2 := resize_inv h hpos
  apply Option.ext
  intro node
  rw [Option.mem_def, Option.mem_def, h2.get_eq_some, h.get_eq_some,
    (entries_resize_perm charSigned hashtable hpos).mem_iff]

/-! ## Replacing one chain -/

theorem inv_set {charSigned : Bool} {hashtable : HashTable} (h : Inv charSigned hashtable)
    {i : Nat} (hi : i < hashtable.size) {chain : List Node} {count : Int}
    (hplaced : ∀ node ∈ chain, hash charSigned node.key % hashtable.size = i)
    (hnodup : (chain.map Node.key).Nodup)
    (hcount : count + (bucket hashtable.table i).length = hashtable.count + chain.length) :
    Inv charSigned
      { size := hashtable.size, count := count, table := hashtable.table.set i chain } := by
  obtain ⟨hpos, hlen, hpl, hnd, hc⟩ := h
  have hi2 : i < hashtable.table.length := hlen ▸ hi
  refine ⟨hpos, by simp [hlen], ?_, ?_, ?_⟩
  · intro j hj node hm
    change node ∈ bucket (hashtable.table.set i chain) j at hm
    change hash charSigned node.key % hashtable.size = j
    rw [bucket_set] at hm
    split at hm
    · next hij => rw [← hij.1]; exact hplaced node hm
    · exact hpl j hj node hm
  · intro j hj
    change ((bucket (hashtable.table.set i chain) j).map Node.key).Nodup
    rw [bucket_set]
    split
    · exact hnodup
    · exact hnd j hj
  · change count = _
    rw [entries_eq_flatten (by simp [hlen])]
    change count = (((hashtable.table.set i chain).flatten.length : Nat) : Int)
    have := length_flatten_set chain hi2
    rw [entries_eq_flatten hlen] at hc
    omega

/-! ## Insert -/

theorem insert_of_some {charSigned : Bool} {hashtable : HashTable} {key : Key} {node : Node}
    (value : Int) (h : getFromHashTable charSigned hashtable key = some node) :
    insertIntoHashTable charSigned hashtable key value =
      { hashtable with
        table := hashtable.table.set (hash charSigned key % hashtable.size)
          (setValue key value (bucket hashtable.table (hash charSigned key % hashtable.size))) } := by
  unfold insertIntoHashTable
  simp only [h]

theorem insert_of_none {charSigned : Bool} {hashtable : HashTable} {key : Key} (value : Int)
    (h : getFromHashTable charSigned hashtable key = none) :
    insertIntoHashTable charSigned hashtable key value =
      if hashtable.count + 1 > (hashtable.size : Int) * 2 then
        resizeHashTable charSigned (linkNewNode charSigned hashtable key value)
          (hashtable.size * 2)
      else linkNewNode charSigned hashtable key value := by
  unfold insertIntoHashTable
  simp only [h]
  rfl

theorem update_inv {charSigned : Bool} {hashtable : HashTable} (h : Inv charSigned hashtable)
    (key : Key) (value : Int) :
    Inv charSigned
      { hashtable with
        table := hashtable.table.set (hash charSigned key % hashtable.size)
          (setValue key value (bucket hashtable.table (hash charSigned key % hashtable.size))) } := by
  have hi : hash charSigned key % hashtable.size < hashtable.size := Nat.mod_lt _ h.1
  apply inv_set h hi
  · intro node hm
    have : node.key ∈ (setValue key value
        (bucket hashtable.table (hash charSigned key % hashtable.size))).map Node.key :=
      List.mem_map.2 ⟨node, hm, rfl⟩
    rw [map_key_setValue] at this
    obtain ⟨n2, hn2, hk⟩ := List.mem_map.1 this
    rw [← hk]
    exact h.2.2.1 _ hi n2 hn2
  · rw [map_key_setValue]
    exact h.2.2.2.1 _ hi
  · have := congrArg List.length (map_key_setValue key value
      (bucket hashtable.table (hash charSigned key % hashtable.size)))
    simp only [List.length_map] at this
    rw [this]

theorem linkNewNode_inv {charSigned : Bool} {hashtable : HashTable}
    (h : Inv charSigned hashtable) {key : Key} (value : Int)
    (habs : getFromHashTable charSigned hashtable key = none) :
    Inv charSigned (linkNewNode charSigned hashtable key value) := by
  have hi : hash charSigned key % hashtable.size < hashtable.size := Nat.mod_lt _ h.1
  unfold linkNewNode
  apply inv_set h hi
  · intro node hm
    rcases List.mem_cons.1 hm with rfl | hm
    · rfl
    · exact h.2.2.1 _ hi node hm
  · rw [List.map_cons, List.nodup_cons]
    refine ⟨?_, h.2.2.2.1 _ hi⟩
    intro hmem
    obtain ⟨n2, hn2, hk⟩ := List.mem_map.1 hmem
    exact findNode_eq_none.1 habs n2 hn2 hk
  · simp only [List.length_cons]
    push_cast
    omega

theorem insert_inv {charSigned : Bool} {hashtable : HashTable} (h : Inv charSigned hashtable)
    (key : Key) (value : Int) :
    Inv charSigned (insertIntoHashTable charSigned hashtable key value) := by
  cases hg : getFromHashTable charSigned hashtable key with
  | some node =>
    rw [insert_of_some value hg]
    exact update_inv h key value
  | none =>
    rw [insert_of_none value hg]
    split
    · exact resize_inv (linkNewNode_inv h value hg) (Nat.mul_pos h.1 (by decide))
    · exact linkNewNode_inv h value hg

theorem get_update_self {charSigned : Bool} {hashtable : HashTable}
    (h : Inv charSigned hashtable) {key : Key} (value : Int)
    (hg : getFromHashTable charSigned hashtable key ≠ none) :
    getFromHashTable charSigned
      { hashtable with
        table := hashtable.table.set (hash charSigned key % hashtable.size)
          (setValue key value (bucket hashtable.table (hash charSigned key % hashtable.size))) }
      key = some { key := key, value := value } := by
  unfold getFromHashTable
  simp only
  rw [bucket_set_self _ (h.index_lt key)]
  exact findNode_setValue_self value hg

theorem get_update_of_ne {charSigned : Bool} (hashtable : HashTable) {key other : Key}
    (value : Int) (hne : other ≠ key) :
    getFromHashTable charSigned
      { hashtable with
        table := hashtable.table.set (hash charSigned key % hashtable.size)
          (setValue key value (bucket hashtable.table (hash charSigned key % hashtable.size))) }
      other = getFromHashTable charSigned hashtable other := by
  unfold getFromHashTable
  simp only
  rw [bucket_set]
  split
  · next hij => rw [← hij.1]; exact findNode_setValue_of_ne value _ hne
  · rfl

theorem get_linkNewNode_self {charSigned : Bool} {hashtable : HashTable}
    (h : Inv charSigned hashtable) (key : Key) (value : Int) :
    getFromHashTable charSigned (linkNewNode charSigned hashtable key value) key =
      some { key := key, value := value } := by
  unfold getFromHashTable linkNewNode
  simp only
  rw [bucket_set_self _ (h.index_lt key)]
  simp [findNode]

theorem get_linkNewNode_of_ne {charSigned : Bool} (hashtable : HashTable) {key other : Key}
    (value : Int) (hne : other ≠ key) :
    getFromHashTable charSigned (linkNewNode charSigned hashtable key value) other =
      getFromHashTable charSigned hashtable other := by
  unfold getFromHashTable linkNewNode
  simp only
  rw [bucket_set]
  split
  · next hij => rw [← hij.1]; simp [findNode, Ne.symm hne]
  · rfl

theorem get_insert_self {charSigned : Bool} {hashtable : HashTable}
    (h : Inv charSigned hashtable) (key : Key) (value : Int) :
    getFromHashTable charSigned (insertIntoHashTable charSigned hashtable key value) key =
      some { key := key, value := value } := by
  cases hg : getFromHashTable charSigned hashtable key with
  | some node =>
    rw [insert_of_some value hg]
    exact get_update_self h value (by rw [hg]; simp)
  | none =>
    rw [insert_of_none value hg]
    split
    · rw [get_resize (linkNewNode_inv h value hg) (Nat.mul_pos h.1 (by decide))]
      exact get_linkNewNode_self h key value
    · exact get_linkNewNode_self h key value

theorem get_insert_of_ne {charSigned : Bool} {hashtable : HashTable}
    (h : Inv charSigned hashtable) {key other : Key} (value : Int) (hne : other ≠ key) :
    getFromHashTable charSigned (insertIntoHashTable charSigned hashtable key value) other =
      getFromHashTable charSigned hashtable other := by
  cases hg : getFromHashTable charSigned hashtable key with
  | some node =>
    rw [insert_of_some value hg]
    exact get_update_of_ne hashtable value hne
  | none =>
    rw [insert_of_none value hg]
    split
    · rw [get_resize (linkNewNode_inv h value hg) (Nat.mul_pos h.1 (by decide))]
      exact get_linkNewNode_of_ne hashtable value hne
    · exact get_linkNewNode_of_ne hashtable value hne

/-! ## Remove -/

theorem remove_of_none {charSigned : Bool} {hashtable : HashTable} {key : Key}
    (h : getFromHashTable charSigned hashtable key = none) :
    removeFromHashTable charSigned hashtable key = hashtable := by
  unfold removeFromHashTable
  have : unlinkNode key (bucket hashtable.table (hash charSigned key % hashtable.size)) = none :=
    unlinkNode_eq_none.2 h
  simp only [this]

theorem remove_of_some {charSigned : Bool} {hashtable : HashTable}
    (h : Inv charSigned hashtable) {key : Key}
    (hg : getFromHashTable charSigned hashtable key ≠ none) :
    removeFromHashTable charSigned hashtable key =
      { size := hashtable.size, count := hashtable.count - 1,
        table := hashtable.table.set (hash charSigned key % hashtable.size)
          ((bucket hashtable.table (hash charSigned key % hashtable.size)).filter
            (fun node => !decide (node.key = key))) } ∧
    ((bucket hashtable.table (hash charSigned key % hashtable.size)).filter
        (fun node => !decide (node.key = key))).length + 1 =
      (bucket hashtable.table (hash charSigned key % hashtable.size)).length := by
  have hi : hash charSigned key % hashtable.size < hashtable.size := Nat.mod_lt _ h.1
  cases hu : unlinkNode key (bucket hashtable.table (hash charSigned key % hashtable.size)) with
  | none => exact absurd (unlinkNode_eq_none.1 hu) hg
  | some chain =>
    obtain ⟨h1, h2⟩ := unlinkNode_some (h.2.2.2.1 _ hi) hu
    subst h1
    refine ⟨?_, h2⟩
    unfold removeFromHashTable
    simp only [hu]

theorem remove_inv {charSigned : Bool} {hashtable : HashTable} (h : Inv charSigned hashtable)
    (key : Key) : Inv charSigned (removeFromHashTable charSigned hashtable key) := by
  by_cases hg : getFromHashTable charSigned hashtable key = none
  · rw [remove_of_none hg]; exact h
  · obtain ⟨he, hl⟩ := remove_of_some h hg
    rw [he]
    have hi : hash charSigned key % hashtable.size < hashtable.size := Nat.mod_lt _ h.1
    apply inv_set h hi
    · intro node hm
      exact h.2.2.1 _ hi node (List.mem_filter.1 hm).1
    · exact (h.2.2.2.1 _ hi).sublist (List.Sublist.map _ (List.filter_sublist _))
    · omega

theorem get_remove_self {charSigned : Bool} {hashtable : HashTable}
    (h : Inv charSigned hashtable) (key : Key) :
    getFromHashTable charSigned (removeFromHashTable charSigned hashtable key) key = none := by
  by_cases hg : getFromHashTable charSigned hashtable key = none
  · rw [remove_of_none hg]; exact hg
  · rw [(remove_of_some h hg).1]
    unfold getFromHashTable
    simp only
    rw [bucket_set_self _ (h.index_lt key), findNode_eq_none]
    intro node hm
    simpa using (List.mem_filter.1 hm).2

theorem get_remove_of_ne {charSigned : Bool} {hashtable : HashTable}
    (h : Inv charSigned hashtable) {key other : Key} (hne : other ≠ key) :
    getFromHashTable charSigned (removeFromHashTable charSigned hashtable key) other =
      getFromHashTable charSigned hashtable other := by
  by_cases hg : getFromHashTable charSigned hashtable key = none
  · rw [remove_of_none hg]
  · rw [(remove_of_some h hg).1]
    unfold getFromHashTable
    simp only
    rw [bucket_set]
    split
    · next hij =>
      rw [← hij.1]
      apply findNode_filter_of_ne
      intro node _ hk
      simp [hk, hne]
    · rfl

/-- Under the invariants `removeFromHashTable` filters the key out of every chain. -/
theorem remove_table_eq {charSigned : Bool} {hashtable : HashTable}
    (h : Inv charSigned hashtable) (key : Key) :
    (removeFromHashTable charSigned hashtable key).table =
      hashtable.table.map (fun chain => chain.filter (fun node => !decide (node.key = key))) := by
  have hkeep : ∀ j < hashtable.table.length, j ≠ hash charSigned key % hashtable.size →
      (bucket hashtable.table j).filter (fun node => !decide (node.key = key)) =
        bucket hashtable.table j := by
    intro j hj hne
    apply List.filter_eq_self.2
    intro node hm
    have := h.2.2.1 j (h.2.1 ▸ hj) node hm
    have hk : node.key ≠ key := by
      intro hk; rw [hk] at this; exact hne this.symm
    simp [hk]
  have hmap : ∀ j < hashtable.table.length,
      bucket (hashtable.table.map
        (fun chain => chain.filter (fun node => !decide (node.key = key)))) j =
      (bucket hashtable.table j).filter (fun node => !decide (node.key = key)) := by
    intro j hj
    simp [bucket, List.getD_eq_getElem?_getD, List.getElem?_eq_getElem hj]
  by_cases hg : getFromHashTable charSigned hashtable key = none
  · rw [remove_of_none hg]
    apply table_ext (by simp)
    intro j hj
    rw [hmap j hj]
    by_cases hj2 : j = hash charSigned key % hashtable.size
    · subst hj2
      symm
      apply List.filter_eq_self.2
      intro node hm
      have := findNode_eq_none.1 hg node hm
      simp [this]
    · exact (hkeep j hj hj2).symm
  · rw [(remove_of_some h hg).1]
    apply table_ext (by simp)
    intro j hj
    simp only [List.length_set] at hj
    rw [hmap j hj, bucket_set]
    split
    · next hij => rw [← hij.1]
    · next hij =>
      have : j ≠ hash charSigned key % hashtable.size := by
        intro e; exact hij ⟨e.symm, h.index_lt key⟩
      exact (hkeep j hj this).symm

/-! ## Reachable tables -/

theorem createHashTable_inv (charSigned : Bool) : Inv charSigned createHashTable := by
  cases charSigned <;> decide

theorem applyOp_inv {charSigned : Bool} {hashtable : HashTable} (h : Inv charSigned hashtable)
    (op : Op) : Inv charSigned (applyOp charSigned hashtable op) := by
  cases op with
  | insert key value => exact insert_inv h key value
  | remove key => exact remove_inv h key

theorem runOps_snoc (charSigned : Bool) (ops : List Op) (op : Op) :
    runOps charSigned (ops ++ [op]) = applyOp charSigned (runOps charSigned ops) op := by
  simp [runOps, List.foldl_append]

theorem runOps_inv (charSigned : Bool) (ops : List Op) :
    Inv charSigned (runOps charSigned ops) := by
  induction ops using List.reverseRecOn with
  | nil => exact createHashTable_inv charSigned
  | append_singleton l op ih =>
    rw [runOps_snoc]
    exact applyOp_inv ih op

/-- Under the invariants the update path of `insertIntoHashTable` rewrites the value of the
nodes holding the key and leaves every chain otherwise as it was. -/
theorem update_table_eq {charSigned : Bool} {hashtable : HashTable}
    (h : Inv charSigned hashtable) (key : Key) (value : Int) :
    hashtable.table.set (hash charSigned key % hashtable.size)
        (setValue key value (bucket hashtable.table (hash charSigned key % hashtable.size))) =
      hashtable.table.map (fun chain => chain.map
        (fun node => if node.key = key then { node with value := value } else node)) := by
  have hi : hash charSigned key % hashtable.size < hashtable.size := Nat.mod_lt _ h.1
  apply table_ext (by simp)
  intro j hj
  simp only [List.length_set] at hj
  have hmap : bucket (hashtable.table.map (fun chain => chain.map
        (fun node => if node.key = key then { node with value := value } else node))) j =
      (bucket hashtable.table j).map
        (fun node => if node.key = key then { node with value := value } else node) := by
    simp [bucket, List.getD_eq_getElem?_getD, List.getElem?_eq_getElem hj]
  rw [hmap, bucket_set]
  split
  · next hij =>
    rw [← hij.1]
    exact setValue_eq_map value (h.2.2.2.1 _ hi)
  · next hij =>
    have hne : j ≠ hash charSigned key % hashtable.size := by
      intro e; exact hij ⟨e.symm, h.index_lt key⟩
    conv_lhs => rw [← List.map_id (bucket hashtable.table j)]
    apply List.map_congr_left
    intro node hm
    have := h.2.2.1 j (h.2.1 ▸ hj) node hm
    have hk : node.key ≠ key := by
      intro hk; rw [hk] at this; exact hne this.symm
    simp [hk]

theorem traverse_eq_map_entries (hashtable : HashTable) :
    traverseHashTable hashtable =
      (entries hashtable).map (fun node => (node.key, node.value)) := by
  unfold traverseHashTable entries
  rw [List.map_flatMap]

/-! ## Specified properties -/

/-- C1. Round trip: in every table reached from `createHashTable()` by insert and remove
calls, `getFromHashTable(k)` right after `insertIntoHashTable(k, v)` finds the entry with
key `k` and value `v`, whether or not the insert resized; the 21st insert of a new key
into the size-10 table is an insert that resizes. -/
theorem C1_insert_then_get (charSigned : Bool) (ops : List Op) (key : Key) (value : Int) :
    getFromHashTable charSigned
        (insertIntoHashTable charSigned (runOps charSigned ops) key value) key =
      some { key := key, value := value } ∧
    (runOps charSigned (sampleInserts 20)).size = 10 ∧
    (insertIntoHashTable charSigned (runOps charSigned (sampleInserts 20))
      (sampleKey 20) 20).size = 20 := by
  refine ⟨get_insert_self (runOps_inv charSigned ops) key value, ?_, ?_⟩
  · cases charSigned <;> decide
  · cases charSigned <;> decide

/-- C2. Update in place: inserting a key the reachable table already holds changes neither
`size` nor `count`, keeps every chain's keys in order and only rewrites that key's value;
and `insert(k, v1); insert(k, v2); get(k)` finds `v2` with `count` as after the first
insert. -/
theorem C2_update_in_place (charSigned : Bool) (ops : List Op) (key : Key) (v1 v2 : Int) :
    (getFromHashTable charSigned (runOps charSigned ops) key ≠ none →
      (insertIntoHashTable charSigned (runOps charSigned ops) key v2).size =
          (runOps charSigned ops).size ∧
      (insertIntoHashTable charSigned (runOps charSigned ops) key v2).count =
          (runOps charSigned ops).count ∧
      (insertIntoHashTable charSigned (runOps charSigned ops) key v2).table =
          (runOps charSigned ops).table.map (fun chain => chain.map
            (fun node => if node.key = key then { node with value := v2 } else node)) ∧
      (insertIntoHashTable charSigned (runOps charSigned ops) key v2).table.map
            (fun chain => chain.map Node.key) =
          (runOps charSigned ops).table.map (fun chain => chain.map Node.key) ∧
      getFromHashTable charSigned
          (insertIntoHashTable charSigned (runOps charSigned ops) key v2) key =
        some { key := key, value := v2 }) ∧
    getFromHashTable charSigned
        (insertIntoHashTable charSigned
          (insertIntoHashTable charSigned (runOps charSigned ops) key v1) key v2) key =
      some { key := key, value := v2 } ∧
    (insertIntoHashTable charSigned
        (insertIntoHashTable charSigned (runOps charSigned ops) key v1) key v2).count =
      (insertIntoHashTable charSigned (runOps charSigned ops) key v1).count := by
  have hinv := runOps_inv charSigned ops
  have hinv1 := insert_inv hinv key v1
  refine ⟨?_, get_insert_self hinv1 key v2, ?_⟩
  · intro hg
    obtain ⟨node, hnode⟩ := Option.ne_none_iff_exists'.1 hg
    have htab := update_table_eq hinv key v2
    rw [insert_of_some v2 hnode]
    refine ⟨rfl, rfl, htab, ?_, get_update_self hinv v2 hg⟩
    simp only [htab, List.map_map]
    apply List.map_congr_left
    intro chain _
    simp only [Function.comp_apply, List.map_map]
    apply List.map_congr_left
    intro node _
    simp only [Function.comp_apply]
    split <;> rfl
  · have hg := get_insert_self hinv key v1
    rw [insert_of_some v2 hg]

theorem C2_update_in_place_witness :
    getFromHashTable true (runOps true mainInserts) key2 ≠ none ∧
    (insertIntoHashTable true (runOps true mainInserts) key2 7).count =
      (runOps true mainInserts).count ∧
    getFromHashTable true (insertIntoHashTable true (runOps true mainInserts) key2 7) key2 =
      some { key := key2, value := 7 } :=
  have h : getFromHashTable true (runOps true mainInserts) key2 ≠ none := by decide
  ⟨h, ((C2_update_in_place true mainInserts key2 5 7).1 h).2.1,
    ((C2_update_in_place true mainInserts key2 5 7).1 h).2.2.2.2⟩

/-- C3. Removal: when a reachable table holds the key, after `removeFromHashTable(k)` the
lookup of `k` returns `NULL` and `count` is one less; so `insert(k, v); remove(k); get(k)`
returns `NULL`. -/
theorem C3_remove_then_get (charSigned : Bool) (ops : List Op) (key : Key) (value : Int) :
    (getFromHashTable charSigned (runOps charSigned ops) key ≠ none →
      getFromHashTable charSigned
          (removeFromHashTable charSigned (runOps charSigned ops) key) key = none ∧
      (removeFromHashTable charSigned (runOps charSigned ops) key).count =
          (runOps charSigned ops).count - 1) ∧
    getFromHashTable charSigned
        (removeFromHashTable charSigned
          (insertIntoHashTable charSigned (runOps charSigned ops) key value) key) key = none ∧
    (removeFromHashTable charSigned
        (insertIntoHashTable charSigned (runOps charSigned ops) key value) key).count =
      (insertIntoHashTable charSigned (runOps charSigned ops) key value).count - 1 := by
  have hinv := runOps_inv charSigned ops
  have hinv1 := insert_inv hinv key value
  refine ⟨?_, get_remove_self hinv1 key, ?_⟩
  · intro hg
    refine ⟨get_remove_self hinv key, ?_⟩
    rw [(remove_of_some hinv hg).1]
  · have hg : getFromHashTable charSigned
        (insertIntoHashTable charSigned (runOps charSigned ops) key value) key ≠ none := by
      rw [get_insert_self hinv key value]; simp
    rw [(remove_of_some hinv1 hg).1]

theorem C3_remove_then_get_witness :
    getFromHashTable true (runOps true mainInserts) key2 ≠ none ∧
    getFromHashTable true (removeFromHashTable true (runOps true mainInserts) key2) key2 = none ∧
    (removeFromHashTable true (runOps true mainInserts) key2).count =
      (runOps true mainInserts).count - 1 :=
  have h : getFromHashTable true (runOps true mainInserts) key2 ≠ none := by decide
  ⟨h, (C3_remove_then_get true mainInserts key2 0).1 h⟩

/-- C4. Removing a key that `getFromHashTable` does not find leaves a reachable table
unchanged, and `removeFromHashTable` is idempotent. -/
theorem C4_remove_absent_noop (charSigned : Bool) (ops : List Op) (key : Key) :
    (getFromHashTable charSigned (runOps charSigned ops) key = none →
      removeFromHashTable charSigned (runOps charSigned ops) key = runOps charSigned ops) ∧
    removeFromHashTable charSigned
        (removeFromHashTable charSigned (runOps charSigned ops) key) key =
      removeFromHashTable charSigned (runOps charSigned ops) key := by
  have hinv := runOps_inv charSigned ops
  exact ⟨fun hg => remove_of_none hg, remove_of_none (get_remove_self hinv key)⟩

theorem C4_remove_absent_noop_witness :
    getFromHashTable true (runOps true mainInserts) (sampleKey 0) = none ∧
    removeFromHashTable true (runOps true mainInserts) (sampleKey 0) =
      runOps true mainInserts :=
  have h : getFromHashTable true (runOps true mainInserts) (sampleKey 0) = none := by decide
  ⟨h, (C4_remove_absent_noop true mainInserts (sampleKey 0)).1 h⟩

/-- C5. Insert does not disturb other keys: in a reachable table the lookup of any key
other than the inserted one has the same outcome after the insert as before, also when
the insert resizes. -/
theorem C5_insert_frame (charSigned : Bool) (ops : List Op) (key other : Key) (value : Int)
    (hne : other ≠ key) :
    getFromHashTable charSigned
        (insertIntoHashTable charSigned (runOps charSigned ops) key value) other =
      getFromHashTable charSigned (runOps charSigned ops) other :=
  get_insert_of_ne (runOps_inv charSigned ops) value hne

theorem C5_insert_frame_witness :
    sampleKey 3 ≠ sampleKey 20 ∧
    (insertIntoHashTable true (runOps true (sampleInserts 20)) (sampleKey 20) 20).size = 20 ∧
    getFromHashTable true
        (insertIntoHashTable true (runOps true (sampleInserts 20)) (sampleKey 20) 20)
        (sampleKey 3) =
      getFromHashTable true (runOps true (sampleInserts 20)) (sampleKey 3) :=
  ⟨by decide, by decide,
    C5_insert_frame true (sampleInserts 20) (sampleKey 20) (sampleKey 3) 20 (by decide)⟩

theorem size_remove (charSigned : Bool) (hashtable : HashTable) (key : Key) :
    (removeFromHashTable charSigned hashtable key).size = hashtable.size := by
  unfold removeFromHashTable
  simp only
  cases hu : unlinkNode key (bucket hashtable.table (hash charSigned key % hashtable.size)) <;>
    rfl

theorem traverse_remove {charSigned : Bool} {hashtable : HashTable}
    (h : Inv charSigned hashtable) (key : Key) :
    traverseHashTable (removeFromHashTable charSigned hashtable key) =
      (traverseHashTable hashtable).filter (fun pair => decide (pair.1 ≠ key)) := by
  have h2 := remove_inv h key
  rw [traverse_eq_map_entries, traverse_eq_map_entries, entries_eq_flatten h2.2.1,
    entries_eq_flatten h.2.1, remove_table_eq h key, List.filter_map]
  congr 1
  induction hashtable.table with
  | nil => rfl
  | cons a tl ih =>
    rw [List.map_cons, List.flatten_cons, List.flatten_cons, List.filter_append, ih]
    congr 1
    apply List.filter_congr
    intro node _
    simp

/-- C6. Remove unlinks exactly one entry and nothing else: the pairs `traverseHashTable`
visits after `removeFromHashTable(k)` on a reachable table are the pairs visited before
without the pair for `k`, in the same order, one pair fewer when `k` was stored, and
`size` is unchanged. After inserting key1, key2, key3 with 10, 20, 30 into a fresh table
and removing key2 the traversal visits key3 with 30 and key1 with 10. -/
theorem C6_remove_unlinks_one (charSigned : Bool) (ops : List Op) (key : Key) :
    traverseHashTable (removeFromHashTable charSigned (runOps charSigned ops) key) =
      (traverseHashTable (runOps charSigned ops)).filter (fun pair => decide (pair.1 ≠ key)) ∧
    (getFromHashTable charSigned (runOps charSigned ops) key ≠ none →
      (traverseHashTable (removeFromHashTable charSigned (runOps charSigned ops) key)).length + 1
        = (traverseHashTable (runOps charSigned ops)).length) ∧
    (removeFromHashTable charSigned (runOps charSigned ops) key).size =
      (runOps charSigned ops).size ∧
    traverseHashTable (runOps charSigned mainInserts) =
      [(key3, 30), (key1, 10), (key2, 20)] ∧
    traverseHashTable (removeFromHashTable charSigned (runOps charSigned mainInserts) key2) =
      [(key3, 30), (key1, 10)] := by
  have hinv := runOps_inv charSigned ops
  refine ⟨traverse_remove hinv key, ?_, size_remove _ _ _, ?_, ?_⟩
  · intro hg
    have h2 := remove_inv hinv key
    have hc : (removeFromHashTable charSigned (runOps charSigned ops) key).count =
        (runOps charSigned ops).count - 1 := by
      rw [(remove_of_some hinv hg).1]
    rw [traverse_eq_map_entries, traverse_eq_map_entries, List.length_map, List.length_map]
    have e1 := h2.2.2.2.2
    have e2 := hinv.2.2.2.2
    omega
  · cases charSigned <;> decide
  · cases charSigned <;> decide

theorem C6_remove_unlinks_one_witness :
    getFromHashTable true (runOps true (sampleInserts 3)) (sampleKey 1) ≠ none ∧
    (traverseHashTable
        (removeFromHashTable true (runOps true (sampleInserts 3)) (sampleKey 1))).length + 1 =
      (traverseHashTable (runOps true (sampleInserts 3))).length :=
  have h : getFromHashTable true (runOps true (sampleInserts 3)) (sampleKey 1) ≠ none := by
    decide
  ⟨h, (C6_remove_unlinks_one true (sampleInserts 3) (sampleKey 1)).2.1 h⟩

/-- C7. Resize preserves all entries: for a table satisfying the data-model invariants
and `new_size > 0`, `resizeHashTable` sets `size` to `new_size`, leaves `count`, keeps
the multiset of `(key, value)` entries, and every lookup has the same outcome as before. -/
theorem C7_resize_preserves (charSigned : Bool) (hashtable : HashTable) (new_size : Nat)
    (hinv : Inv charSigned hashtable) (hpos : 0 < new_size) :
    (resizeHashTable charSigned hashtable new_size).size = new_size ∧
    (resizeHashTable charSigned hashtable new_size).count = hashtable.count ∧
    (traverseHashTable (resizeHashTable charSigned hashtable new_size)).Perm
      (traverseHashTable hashtable) ∧
    ∀ key : Key,
      getFromHashTable charSigned (resizeHashTable charSigned hashtable new_size) key =
        getFromHashTable charSigned hashtable key := by
  refine ⟨rfl, rfl, ?_, fun key => get_resize hinv hpos key⟩
  rw [traverse_eq_map_entries, traverse_eq_map_entries]
  exact (entries_resize_perm charSigned hashtable hpos).map _

theorem C7_resize_preserves_witness :
    Inv true (runOps true mainInserts) ∧ 0 < 7 ∧
    (resizeHashTable true (runOps true mainInserts) 7).size = 7 ∧
    (resizeHashTable true (runOps true mainInserts) 7).count = (runOps true mainInserts).count ∧
    (traverseHashTable (resizeHashTable true (runOps true mainInserts) 7)).Perm
      (traverseHashTable (runOps true mainInserts)) ∧
    ∀ key : Key,
      getFromHashTable true (resizeHashTable true (runOps true mainInserts) 7) key =
        getFromHashTable true (runOps true mainInserts) key :=
  ⟨by decide, by decide, C7_resize_preserves true (runOps true mainInserts) 7 (by decide) (by decide)⟩

/-! ## Growth -/

theorem insert_absent_count_size {charSigned : Bool} {hashtable : HashTable} {key : Key}
    (value : Int) (h : getFromHashTable charSigned hashtable key = none) :
    (insertIntoHashTable charSigned hashtable key value).count = hashtable.count + 1 ∧
    (insertIntoHashTable charSigned hashtable key value).size =
      if hashtable.count + 1 > (hashtable.size : Int) * 2 then hashtable.size * 2
      else hashtable.size := by
  rw [insert_of_none value h]
  split <;> exact ⟨rfl, rfl⟩

theorem insertAll_snoc (charSigned : Bool) (pairs : List (Key × Int)) (pair : Key × Int) :
    insertAll charSigned (pairs ++ [pair]) =
      insertIntoHashTable charSigned (insertAll charSigned pairs) pair.1 pair.2 := by
  simp [insertAll, List.foldl_append]

theorem get_insert_ne_none {charSigned : Bool} {hashtable : HashTable}
    (h : Inv charSigned hashtable) {key other : Key} (value : Int)
    (hg : getFromHashTable charSigned (insertIntoHashTable charSigned hashtable key value) other
      ≠ none) :
    other = key ∨ getFromHashTable charSigned hashtable other ≠ none := by
  by_cases hne : other = key
  · exact Or.inl hne
  · rw [get_insert_of_ne h value hne] at hg
    exact Or.inr hg

theorem get_create (charSigned : Bool) (key : Key) :
    getFromHashTable charSigned createHashTable key = none := by
  unfold getFromHashTable createHashTable
  simp only
  rw [bucket_replicate]
  rfl

/-- What a run of inserts of pairwise distinct keys into a fresh table establishes. -/
theorem insertAll_spec (charSigned : Bool) (pairs : List (Key × Int))
    (hnd : (pairs.map Prod.fst).Nodup) :
    Inv charSigned (insertAll charSigned pairs) ∧
    (insertAll charSigned pairs).count = (pairs.length : Int) ∧
    (∀ pair ∈ pairs, getFromHashTable charSigned (insertAll charSigned pairs) pair.1 =
      some { key := pair.1, value := pair.2 }) ∧
    (∀ key, getFromHashTable charSigned (insertAll charSigned pairs) key ≠ none →
      key ∈ pairs.map Prod.fst) ∧
    ∃ j : Nat, (insertAll charSigned pairs).size = 10 * 2 ^ j ∧
      pairs.length ≤ 2 * (insertAll charSigned pairs).size ∧
      (j = 0 ∨ (insertAll charSigned pairs).size < pairs.length) := by
  induction pairs using List.reverseRecOn with
  | nil =>
    refine ⟨createHashTable_inv charSigned, rfl, ?_, ?_, 0, rfl, ?_, Or.inl rfl⟩
    · intro pair hp; cases hp
    · intro key hg
      exact absurd (get_create charSigned key) hg
    · simp
  | append_singleton l pair ih =>
    rw [List.map_append, List.nodup_append] at hnd
    obtain ⟨hinv, hcount, hget, hkeys, j, hsize, hle, hleast⟩ := ih hnd.1
    have habs : getFromHashTable charSigned (insertAll charSigned l) pair.1 = none := by
      by_contra hg
      exact hnd.2.2 (hkeys _ hg) (by simp)
    obtain ⟨hc, hs⟩ := insert_absent_count_size pair.2 habs
    rw [insertAll_snoc]
    refine ⟨insert_inv hinv _ _, ?_, ?_, ?_, ?_⟩
    · rw [hc, hcount]; simp
    · intro p hp
      rcases List.mem_append.1 hp with hp | hp
      · have hne : p.1 ≠ pair.1 := by
          intro e
          exact hnd.2.2 (List.mem_map.2 ⟨p, hp, rfl⟩) (by simp [e])
        rw [get_insert_of_ne hinv _ hne]
        exact hget p hp
      · have : p = pair := by simpa using hp
        subst this
        exact get_insert_self hinv _ _
    · intro key hg
      rcases get_insert_ne_none hinv _ hg with rfl | hg
      · simp
      · rw [List.map_append]
        exact List.mem_append_left _ (hkeys key hg)
    · simp only [List.length_append, List.length_singleton]
      by_cases hgt : (insertAll charSigned l).count + 1 > ((insertAll charSigned l).size : Int) * 2
      · rw [if_pos hgt] at hs
        rw [hs]
        refine ⟨j + 1, ?_, ?_, ?_⟩
        · rw [hsize, pow_succ]; ring
        · have hpos := hinv.1
          omega
        · right; omega
      · rw [if_neg hgt] at hs
        rw [hs]
        refine ⟨j, hsize, ?_, ?_⟩
        · omega
        · rcases hleast with h0 | hlt
          · exact Or.inl h0
          · right; omega

/-- C8. Growth over a run of inserts: after inserting `n` pairwise distinct keys into a
fresh table, `count = n`, every key is found with the value it was inserted with, and
`size = 10 * 2^j` for the least `j` with `n ≤ 20 * 2^j`: 10 for `n ≤ 20`, 20 for
`21 ≤ n ≤ 40`, 40 for `41 ≤ n ≤ 80`, and at least two doublings once `n ≥ 41`. -/
theorem C8_growth (charSigned : Bool) (pairs : List (Key × Int))
    (hnd : (pairs.map Prod.fst).Nodup) :
    (insertAll charSigned pairs).count = (pairs.length : Int) ∧
    (∀ pair ∈ pairs, getFromHashTable charSigned (insertAll charSigned pairs) pair.1 =
      some { key := pair.1, value := pair.2 }) ∧
    (∃ j : Nat, (insertAll charSigned pairs).size = 10 * 2 ^ j ∧
      pairs.length ≤ 20 * 2 ^ j ∧ ∀ i < j, ¬ pairs.length ≤ 20 * 2 ^ i) ∧
    (pairs.length ≤ 20 → (insertAll charSigned pairs).size = 10) ∧
    (21 ≤ pairs.length → pairs.length ≤ 40 → (insertAll charSigned pairs).size = 20) ∧
    (41 ≤ pairs.length → pairs.length ≤ 80 → (insertAll charSigned pairs).size = 40) ∧
    (41 ≤ pairs.length →
      ∃ j : Nat, 2 ≤ j ∧ (insertAll charSigned pairs).size = 10 * 2 ^ j) := by
  obtain ⟨_, hcount, hget, _, j, hsize, hle, hleast⟩ := insertAll_spec charSigned pairs hnd
  have hbelow : ∀ i < j, ¬ pairs.length ≤ 20 * 2 ^ i := by
    intro i hi
    rcases hleast with h0 | hlt
    · omega
    · have hpow : 2 ^ (i + 1) ≤ 2 ^ j := Nat.pow_le_pow_right (by decide) hi
      rw [pow_succ] at hpow
      omega
  have hj0 : pairs.length ≤ 20 → j = 0 := by
    intro hn
    by_contra hj
    exact hbelow 0 (Nat.pos_of_ne_zero hj) (by simpa using hn)
  have hj1 : 21 ≤ pairs.length → pairs.length ≤ 40 → j = 1 := by
    intro h1 h2
    have hpos : 0 < j := by
      rcases Nat.eq_zero_or_pos j with h0 | hp
      · rw [h0] at hsize; omega
      · exact hp
    by_contra hj
    have : 1 < j := by omega
    exact hbelow 1 this (by simpa using h2)
  have hj2 : 41 ≤ pairs.length → 2 ≤ j := by
    intro h1
    by_contra hj
    have hpow : 2 ^ j ≤ 2 ^ 1 := Nat.pow_le_pow_right (by decide) (by omega)
    omega
  refine ⟨hcount, hget, ⟨j, hsize, by omega, hbelow⟩, ?_, ?_, ?_, ?_⟩
  · intro hn; rw [hsize, hj0 hn]; rfl
  · intro h1 h2; rw [hsize, hj1 h1 h2]; rfl
  · intro h1 h2
    have h2j := hj2 h1
    have : j = 2 := by
      by_contra hj
      have : 2 < j := by omega
      exact hbelow 2 this (by simpa using h2)
    rw [hsize, this]; rfl
  · intro h1
    exact ⟨j, hj2 h1, hsize⟩

theorem C8_growth_witness :
    ((samplePairs 41).map Prod.fst).Nodup ∧
    (insertAll true (samplePairs 41)).count = 41 ∧
    (insertAll true (samplePairs 41)).size = 40 :=
  have h : ((samplePairs 41).map Prod.fst).Nodup := by decide
  ⟨h, (C8_growth true (samplePairs 41) h).1,
    (C8_growth true (samplePairs 41) h).2.2.2.2.2.1 (by decide) (by decide)⟩

/-! ## The hasher -/

theorem hashLoop_eq_foldl (charSigned : Bool) (acc : Nat) (bytes : List Nat) :
    hashLoop charSigned acc bytes =
      bytes.foldl
        (fun acc b => (acc * 31 + toUnsigned (charToInt charSigned b)) % 4294967296) acc := by
  induction bytes generalizing acc with
  | nil => rfl
  | cons b rest ih =>
    rw [List.foldl_cons, ← ih]
    rfl

theorem hashLoop_lt (charSigned : Bool) {acc : Nat} (hacc : acc < 4294967296)
    (bytes : List Nat) : hashLoop charSigned acc bytes < 4294967296 := by
  induction bytes generalizing acc with
  | nil => exact hacc
  | cons b rest ih =>
    unfold hashLoop
    exact ih (Nat.mod_lt _ (by decide))

theorem hashLoop_mod (charSigned : Bool) (acc : Nat) (bytes : List Nat) :
    hashLoop charSigned acc bytes % 4294967296 =
      (acc * 31 ^ bytes.length +
        polySum (fun b => toUnsigned (charToInt charSigned b)) bytes) % 4294967296 := by
  induction bytes generalizing acc with
  | nil => simp [hashLoop, polySum]
  | cons b rest ih =>
    unfold hashLoop polySum
    rw [ih, List.length_cons, pow_succ, MULTIPLIER, UINT_RANGE]
    rw [Nat.add_mod, Nat.mul_mod, Nat.mod_mod, ← Nat.mul_mod, ← Nat.add_mod]
    congr 1
    ring

theorem contribution_of_plain {charSigned : Bool} {b : Nat} (hb : b < 256)
    (h : charSigned = false ∨ b < 128) : toUnsigned (charToInt charSigned b) = b := by
  have : charToInt charSigned b = (b : Int) := by
    unfold charToInt
    rw [if_neg]
    rintro ⟨h1, h2⟩
    rcases h with h | h
    · rw [h] at h1; cases h1
    · omega
  rw [this]
  unfold toUnsigned UINT_RANGE
  omega

theorem contribution_eq (charSigned : Bool) {b : Nat} (hb : b < 256) :
    toUnsigned (charToInt charSigned b) =
      if charSigned = true ∧ 128 ≤ b then b + 4294967040 else b := by
  unfold toUnsigned charToInt UINT_RANGE
  split <;> omega

theorem polySum_congr {f g : Nat → Nat} {bytes : List Nat} (h : ∀ b ∈ bytes, f b = g b) :
    polySum f bytes = polySum g bytes := by
  induction bytes with
  | nil => rfl
  | cons b rest ih =>
    unfold polySum
    rw [h b (List.mem_cons_self _ _), ih (fun c hc => h c (List.mem_cons_of_mem _ hc))]

theorem foldl_hash_congr {f g : Nat → Nat} {bytes : List Nat} (h : ∀ b ∈ bytes, f b = g b)
    (acc : Nat) :
    bytes.foldl (fun acc b => (acc * 31 + f b) % 4294967296) acc =
      bytes.foldl (fun acc b => (acc * 31 + g b) % 4294967296) acc := by
  induction bytes generalizing acc with
  | nil => rfl
  | cons b rest ih =>
    rw [List.foldl_cons, List.foldl_cons, h b (List.mem_cons_self _ _),
      ih (fun c hc => h c (List.mem_cons_of_mem _ hc))]

theorem hash_eq_poly (charSigned : Bool) (key : Key) :
    hash charSigned key =
      polySum (fun b => toUnsigned (charToInt charSigned b)) key.val % 4294967296 := by
  have h1 := hashLoop_mod charSigned 0 key.val
  have h2 := hashLoop_lt charSigned (by decide : 0 < 4294967296) key.val
  rw [Nat.mod_eq_of_lt h2] at h1
  simpa [hash] using h1

/-- C9, as the code has it. `hash` is the left fold `acc := (acc * 31 + c_i) mod 2^32`
from 0, equivalently the polynomial in the `c_i` modulo `2^32`, where `c_i` is what the
`char` holding byte `b_i` converts to: `b_i` itself, or `b_i + 2^32 - 256` for
`b_i ≥ 128` where plain `char` is signed. Where plain `char` is unsigned, or for keys of
bytes below 128, this is the specification's rolling hash of the byte values. The hash of
the empty string is 0 and keys with the same bytes have the same hash. -/
theorem C9_hash_rolling (charSigned : Bool) (key : Key) :
    hash charSigned key =
      key.val.foldl
        (fun acc b => (acc * 31 + toUnsigned (charToInt charSigned b)) % 4294967296) 0 ∧
    hash charSigned key =
      polySum (fun b => toUnsigned (charToInt charSigned b)) key.val % 4294967296 ∧
    (∀ b ∈ key.val, toUnsigned (charToInt charSigned b) =
      if charSigned = true ∧ 128 ≤ b then b + 4294967040 else b) ∧
    ((charSigned = false ∨ ∀ b ∈ key.val, b < 128) →
      hash charSigned key = specHash key ∧ hash charSigned key = specPolyHash key) ∧
    hash charSigned emptyKey = 0 ∧
    (∀ other : Key, other.val = key.val → hash charSigned other = hash charSigned key) := by
  refine ⟨hashLoop_eq_foldl charSigned 0 key.val, hash_eq_poly charSigned key, ?_, ?_, rfl, ?_⟩
  · intro b hb
    exact contribution_eq charSigned (key.property b hb).2
  · intro h
    have hplain : ∀ b ∈ key.val, toUnsigned (charToInt charSigned b) = b := by
      intro b hb
      apply contribution_of_plain (key.property b hb).2
      rcases h with h | h
      · exact Or.inl h
      · exact Or.inr (h b hb)
    constructor
    · unfold hash specHash
      rw [hashLoop_eq_foldl]
      exact foldl_hash_congr hplain 0
    · rw [hash_eq_poly]
      unfold specPolyHash
      rw [polySum_congr hplain]
  · intro other ho
    rw [Subtype.ext ho]

theorem C9_hash_rolling_witness :
    (true = false ∨ ∀ b ∈ key1.val, b < 128) ∧
    hash true key1 = specHash key1 ∧ hash true key1 = specPolyHash key1 :=
  have h : true = false ∨ ∀ b ∈ key1.val, b < 128 := Or.inr (by decide)
  ⟨h, (C9_hash_rolling true key1).2.2.2.1 h⟩

/-- C9 as stated fails where plain `char` is signed: for the one-byte key `"\x80"` the
code adds `(unsigned)(-128)`, giving 4294967168, while the rolling hash of the byte value
is 128. -/
theorem C9_hash_signed_char_counterexample :
    hash true highKey = 4294967168 ∧ specHash highKey = 128 ∧
    specPolyHash highKey = 128 ∧ hash true highKey ≠ specHash highKey := by
  decide

/-! ## Counting over a run -/

theorem runLog_snoc (charSigned : Bool) (ops : List Op) (op : Op) :
    runLog charSigned (ops ++ [op]) = logOp charSigned (runLog charSigned ops) op := by
  simp [runLog, List.foldl_append]

theorem table_logOp (charSigned : Bool) (log : RunLog) (op : Op) :
    (logOp charSigned log op).table = applyOp charSigned log.table op := by
  cases op with
  | insert key value => rfl
  | remove key =>
    simp only [logOp, applyOp]
    split <;> rfl

theorem runLog_table (charSigned : Bool) (ops : List Op) :
    (runLog charSigned ops).table = runOps charSigned ops := by
  induction ops using List.reverseRecOn with
  | nil => rfl
  | append_singleton l op ih => rw [runLog_snoc, runOps_snoc, table_logOp, ih]

theorem length_dedup_snoc (keys : List Key) (key : Key) :
    (keys ++ [key]).dedup.length =
      if key ∈ keys then keys.dedup.length else keys.dedup.length + 1 := by
  rw [← List.card_toFinset, ← List.card_toFinset, List.toFinset_append]
  split
  · next hm =>
    have : [key].toFinset ⊆ keys.toFinset := by
      intro x hx
      simp at hx
      subst hx
      exact List.mem_toFinset.2 hm
    rw [Finset.union_eq_left.2 this]
  · next hm =>
    have : keys.toFinset ∪ [key].toFinset = insert key keys.toFinset := by
      ext x; simp [or_comm]
    rw [this, Finset.card_insert_of_not_mem (by simpa using hm)]

theorem count_insert {charSigned : Bool} (hashtable : HashTable) (key : Key) (value : Int) :
    (insertIntoHashTable charSigned hashtable key value).count =
      if getFromHashTable charSigned hashtable key = none then hashtable.count + 1
      else hashtable.count := by
  cases hg : getFromHashTable charSigned hashtable key with
  | none => simp [(insert_absent_count_size value hg).1]
  | some node => rw [insert_of_some value hg]; simp

theorem count_remove {charSigned : Bool} {hashtable : HashTable}
    (h : Inv charSigned hashtable) (key : Key) :
    (removeFromHashTable charSigned hashtable key).count =
      if getFromHashTable charSigned hashtable key = none then hashtable.count
      else hashtable.count - 1 := by
  by_cases hg : getFromHashTable charSigned hashtable key = none
  · rw [remove_of_none hg, if_pos hg]
  · rw [(remove_of_some h hg).1, if_neg hg]

/-- Bookkeeping invariant of a run: the keys of its insert calls are the keys stored or
removed, and `count` plus the successful removes is the number of distinct inserted keys
plus the re-creating inserts. -/
theorem runLog_spec (charSigned : Bool) (ops : List Op) :
    (∀ key, key ∈ insertedKeys ops ↔
      (getFromHashTable charSigned (runOps charSigned ops) key ≠ none ∨
        key ∈ (runLog charSigned ops).removedKeys)) ∧
    (runOps charSigned ops).count + ((runLog charSigned ops).removed : Int) =
      (distinctInsertedKeys ops : Int) + ((runLog charSigned ops).recreated : Int) := by
  induction ops using List.reverseRecOn with
  | nil =>
    refine ⟨?_, rfl⟩
    intro key
    simp [insertedKeys, runLog, runOps, get_create]
  | append_singleton l op ih =>
    obtain ⟨hkeys, hcount⟩ := ih
    have hinv := runOps_inv charSigned l
    have htab := runLog_table charSigned l
    rw [runLog_snoc, runOps_snoc]
    unfold distinctInsertedKeys at hcount ⊢
    cases op with
    | insert key value =>
      have hik : insertedKeys (l ++ [Op.insert key value]) = insertedKeys l ++ [key] := by
        simp [insertedKeys, List.filterMap_append]
      rw [hik, length_dedup_snoc]
      simp only [applyOp, logOp, htab]
      constructor
      · intro k
        rw [List.mem_append, hkeys k]
        by_cases hk : k = key
        · subst hk
          simp [get_insert_self hinv]
        · rw [get_insert_of_ne hinv value hk]
          simp [hk]
      · rw [count_insert]
        by_cases hg : getFromHashTable charSigned (runOps charSigned l) key = none
        · by_cases hgone : key ∈ (runLog charSigned l).removedKeys
          · have hmem : key ∈ insertedKeys l := (hkeys key).2 (Or.inr hgone)
            simp only [hg, hgone, hmem, and_self, if_true]
            push_cast
            omega
          · have hmem : key ∉ insertedKeys l := by
              intro hm
              rcases (hkeys key).1 hm with h | h
              · exact h hg
              · exact hgone h
            simp only [hg, hgone, hmem, and_false, if_true, if_false]
            push_cast
            omega
        · have hmem : key ∈ insertedKeys l := (hkeys key).2 (Or.inl hg)
          simp only [hg, hmem, false_and, if_true, if_false]
          omega
    | remove key =>
      have hik : insertedKeys (l ++ [Op.remove key]) = insertedKeys l := by
        simp [insertedKeys, List.filterMap_append]
      rw [hik]
      simp only [applyOp, logOp, htab]
      by_cases hg : getFromHashTable charSigned (runOps charSigned l) key = none
      · simp only [hg, if_true]
        rw [remove_of_none hg]
        exact ⟨hkeys, hcount⟩
      · simp only [hg, if_false]
        constructor
        · intro k
          rw [hkeys k]
          by_cases hk : k = key
          · subst hk
            simp [get_remove_self hinv, hg]
          · rw [get_remove_of_ne hinv hk]
            simp [hk]
        · rw [count_remove hinv, if_neg hg]
          push_cast
          omega

/-- C10, as the code has it. After any sequence of insert and remove calls on a fresh
table, `count` is the number of distinct keys in the insert calls, plus the number of
insert calls that created an entry anew for a key removed earlier, minus the number of
remove calls that found and removed an entry. When no insert re-creates a removed key,
this is the number of distinct inserted keys minus the successful removes. -/
theorem C10_count_formula (charSigned : Bool) (ops : List Op) :
    (runOps charSigned ops).count =
      (distinctInsertedKeys ops : Int) + (recreatingInserts charSigned ops : Int) -
        (successfulRemoves charSigned ops : Int) ∧
    (recreatingInserts charSigned ops = 0 →
      (runOps charSigned ops).count =
        (distinctInsertedKeys ops : Int) - (successfulRemoves charSigned ops : Int)) := by
  have h := (runLog_spec charSigned ops).2
  unfold recreatingInserts successfulRemoves
  constructor
  · omega
  · intro h0
    rw [h0] at h
    omega

theorem C10_count_formula_witness :
    recreatingInserts true (mainInserts ++ [Op.remove key2]) = 0 ∧
    (runOps true (mainInserts ++ [Op.remove key2])).count =
      (distinctInsertedKeys (mainInserts ++ [Op.remove key2]) : Int) -
        (successfulRemoves true (mainInserts ++ [Op.remove key2]) : Int) :=
  have h : recreatingInserts true (mainInserts ++ [Op.remove key2]) = 0 := by decide
  ⟨h, (C10_count_formula true (mainInserts ++ [Op.remove key2])).2 h⟩

/-- C10 as stated fails when a key is inserted again after its removal: after
`insert(key1); remove(key1); insert(key1)` the count is 1, while one distinct key was
inserted and one remove succeeded. -/
theorem C10_reinsert_counterexample :
    (runOps true reinsertOps).count = 1 ∧
    distinctInsertedKeys reinsertOps = 1 ∧
    successfulRemoves true reinsertOps = 1 ∧
    (runOps true reinsertOps).count ≠
      (distinctInsertedKeys reinsertOps : Int) - (successfulRemoves true reinsertOps : Int) := by
  decide

/-! ## Size along a run -/

theorem size_insert_cases (charSigned : Bool) (hashtable : HashTable) (key : Key)
    (value : Int) :
    (insertIntoHashTable charSigned hashtable key value).size = hashtable.size ∨
    (insertIntoHashTable charSigned hashtable key value).size = hashtable.size * 2 := by
  cases hg : getFromHashTable charSigned hashtable key with
  | some node => rw [insert_of_some value hg]; exact Or.inl rfl
  | none =>
    rw [(insert_absent_count_size value hg).2]
    split
    · exact Or.inr rfl
    · exact Or.inl rfl

theorem size_applyOp_cases (charSigned : Bool) (hashtable : HashTable) (op : Op) :
    (applyOp charSigned hashtable op).size = hashtable.size ∨
    (applyOp charSigned hashtable op).size = hashtable.size * 2 := by
  cases op with
  | insert key value => exact size_insert_cases charSigned hashtable key value
  | remove key => exact Or.inl (size_remove charSigned hashtable key)

theorem runOps_size_pow (charSigned : Bool) (ops : List Op) :
    ∃ j : Nat, (runOps charSigned ops).size = 10 * 2 ^ j := by
  induction ops using List.reverseRecOn with
  | nil => exact ⟨0, rfl⟩
  | append_singleton l op ih =>
    obtain ⟨j, hj⟩ := ih
    rw [runOps_snoc]
    rcases size_applyOp_cases charSigned (runOps charSigned l) op with h | h
    · exact ⟨j, by rw [h, hj]⟩
    · exact ⟨j + 1, by rw [h, hj, pow_succ]; ring⟩

theorem runOps_size_ge (charSigned : Bool) (ops : List Op) :
    10 ≤ (runOps charSigned ops).size := by
  obtain ⟨j, hj⟩ := runOps_size_pow charSigned ops
  have : 1 ≤ 2 ^ j := Nat.one_le_two_pow
  omega

/-! ## Creation order -/

theorem bucket_map (f : List Node → List Node) (hf : f [] = []) (table : List (List Node))
    (j : Nat) : bucket (table.map f) j = f (bucket table j) := by
  unfold bucket
  rw [List.getD_eq_getElem?_getD, List.getD_eq_getElem?_getD, List.getElem?_map]
  cases table[j]? with
  | none => simp [hf]
  | some chain => simp

theorem creation_fold_snoc (charSigned : Bool) (ops : List Op) (op : Op) :
    (ops ++ [op]).foldl (stepCreation charSigned) (createHashTable, []) =
      stepCreation charSigned (ops.foldl (stepCreation charSigned) (createHashTable, [])) op := by
  simp [List.foldl_append]

theorem creation_fold_table (charSigned : Bool) (ops : List Op) :
    (ops.foldl (stepCreation charSigned) (createHashTable, [])).1 = runOps charSigned ops := by
  induction ops using List.reverseRecOn with
  | nil => rfl
  | append_singleton l op ih =>
    rw [creation_fold_snoc, runOps_snoc, ← ih]
    cases op <;> rfl

theorem creationOrder_insert (charSigned : Bool) (ops : List Op) (key : Key) (value : Int) :
    creationOrder charSigned (ops ++ [Op.insert key value]) =
      if getFromHashTable charSigned (runOps charSigned ops) key = none then
        key :: creationOrder charSigned ops
      else creationOrder charSigned ops := by
  unfold creationOrder
  rw [creation_fold_snoc]
  simp only [stepCreation, creation_fold_table]

theorem creationOrder_remove (charSigned : Bool) (ops : List Op) (key : Key) :
    creationOrder charSigned (ops ++ [Op.remove key]) =
      (creationOrder charSigned ops).filter (fun k => !decide (k = key)) := by
  unfold creationOrder
  rw [creation_fold_snoc]
  simp only [stepCreation]

/-- While no insert has resized the table, each chain lists the live keys of its bucket
with the most recently created entry first. -/
theorem chain_keys_of_no_resize (charSigned : Bool) (ops : List Op)
    (h : (runOps charSigned ops).size = 10) (i : Nat) (hi : i < 10) :
    (bucket (runOps charSigned ops).table i).map Node.key =
      (creationOrder charSigned ops).filter (fun k => decide (hash charSigned k % 10 = i)) := by
  induction ops using List.reverseRecOn generalizing i with
  | nil =>
    have : bucket (runOps charSigned []).table i = [] := bucket_replicate _ _
    rw [this]
    rfl
  | append_singleton l op ih =>
    have hinv := runOps_inv charSigned l
    have hge := runOps_size_ge charSigned l
    rw [runOps_snoc] at h ⊢
    have hl : (runOps charSigned l).size = 10 := by
      rcases size_applyOp_cases charSigned (runOps charSigned l) op with e | e <;> omega
    have hlen : (runOps charSigned l).table.length = 10 := by rw [hinv.2.1, hl]
    cases op with
    | insert key value =>
      rw [creationOrder_insert]
      simp only [applyOp] at h ⊢
      cases hg : getFromHashTable charSigned (runOps charSigned l) key with
      | some node =>
        rw [insert_of_some value hg]
        simp only [reduceCtorEq, if_false]
        rw [bucket_set]
        split
        · next hij => rw [map_key_setValue, hij.1]; exact ih hl i hi
        · exact ih hl i hi
      | none =>
        have hs := (insert_absent_count_size value hg).2
        rw [h] at hs
        have hnot : ¬ (runOps charSigned l).count + 1 > ((runOps charSigned l).size : Int) * 2 := by
          intro hgt
          rw [if_pos hgt] at hs
          omega
        rw [insert_of_none value hg, if_neg hnot]
        simp only [if_true]
        unfold linkNewNode
        simp only
        rw [bucket_set, hl]
        by_cases hk : hash charSigned key % 10 = i
        · have hidx : hash charSigned key % 10 < (runOps charSigned l).table.length := by
            rw [hlen]; omega
          rw [if_pos ⟨hk, hidx⟩, List.map_cons, List.filter_cons, hk]
          simp only [decide_True, if_true]
          rw [ih hl i hi]
        · rw [if_neg (fun hc => hk hc.1), List.filter_cons]
          simp only [hk, decide_False, Bool.false_eq_true, if_false]
          exact ih hl i hi
    | remove key =>
      rw [creationOrder_remove]
      simp only [applyOp]
      rw [remove_table_eq hinv key, bucket_map _ (by rfl)]
      have hmk : ∀ chain : List Node,
          (chain.filter (fun node => !decide (node.key = key))).map Node.key =
            (chain.map Node.key).filter (fun k => !decide (k = key)) := by
        intro chain
        rw [List.filter_map]
        rfl
      rw [hmk, ih hl i hi, List.filter_filter, List.filter_filter]
      apply List.filter_congr
      intro k _
      exact Bool.and_comm _ _

theorem bucket_sublist_flatten (table : List (List Node)) (i : Nat) :
    (bucket table i).Sublist table.flatten := by
  by_cases hi : i < table.length
  · apply List.sublist_flatten_of_mem
    unfold bucket
    rw [List.getD_eq_getElem?_getD, List.getElem?_eq_getElem hi]
    exact List.getElem_mem hi
  · unfold bucket
    rw [List.getD_eq_getElem?_getD, List.getElem?_eq_none (Nat.le_of_not_lt hi)]
    exact List.nil_sublist _

theorem traverse_keys (hashtable : HashTable) :
    (traverseHashTable hashtable).map Prod.fst = (entries hashtable).map Node.key := by
  rw [traverse_eq_map_entries, List.map_map]
  rfl

/-- While no insert has resized the table (its size is still `INITIAL_SIZE`), the keys of
each chain are the live keys of that bucket with the most recently created entry first; so
of two live keys in one bucket the later created comes earlier in the chain and in the
traversal. -/
theorem chain_order_before_resize (charSigned : Bool) (ops : List Op)
    (h : (runOps charSigned ops).size = INITIAL_SIZE) :
    (∀ i < (runOps charSigned ops).size,
      (bucket (runOps charSigned ops).table i).map Node.key =
        (creationOrder charSigned ops).filter
          (fun k => decide (hash charSigned k % (runOps charSigned ops).size = i))) ∧
    ∀ a b : Key, [a, b].Sublist (creationOrder charSigned ops) →
      hash charSigned a % (runOps charSigned ops).size =
        hash charSigned b % (runOps charSigned ops).size →
      [a, b].Sublist
        ((bucket (runOps charSigned ops).table
          (hash charSigned a % (runOps charSigned ops).size)).map Node.key) ∧
      [a, b].Sublist ((traverseHashTable (runOps charSigned ops)).map Prod.fst) := by
  have h10 : (runOps charSigned ops).size = 10 := h
  have hinv := runOps_inv charSigned ops
  have hchain : ∀ i < (runOps charSigned ops).size,
      (bucket (runOps charSigned ops).table i).map Node.key =
        (creationOrder charSigned ops).filter
          (fun k => decide (hash charSigned k % (runOps charSigned ops).size = i)) := by
    intro i hi
    rw [h10] at hi ⊢
    exact chain_keys_of_no_resize charSigned ops h10 i hi
  refine ⟨hchain, ?_⟩
  intro a b hab hsame
  have hidx : hash charSigned a % (runOps charSigned ops).size < (runOps charSigned ops).size :=
    Nat.mod_lt _ hinv.1
  have hsub : [a, b].Sublist
      ((bucket (runOps charSigned ops).table
        (hash charSigned a % (runOps charSigned ops).size)).map Node.key) := by
    rw [hchain _ hidx]
    have := List.Sublist.filter
      (fun k => decide (hash charSigned k % (runOps charSigned ops).size =
        hash charSigned a % (runOps charSigned ops).size)) hab
    simpa [List.filter_cons, hsame.symm] using this
  refine ⟨hsub, hsub.trans ?_⟩
  rw [traverse_keys, entries_eq_flatten hinv.2.1]
  exact (bucket_sublist_flatten _ _).map _

/-- C11 as stated fails once an insert has resized the table: `resizeHashTable` prepends
the nodes in old traversal order, which reverses each chain. After 21 inserts the entry of
sample key 20 was created last, yet in bucket 1 it comes after the entry of sample key 0,
in the chain and in the traversal. -/
theorem C11_resize_reverses_counterexample :
    [sampleKey 20, sampleKey 0].Sublist (creationOrder true (sampleInserts 21)) ∧
    hash true (sampleKey 20) % (runOps true (sampleInserts 21)).size = 1 ∧
    hash true (sampleKey 0) % (runOps true (sampleInserts 21)).size = 1 ∧
    (bucket (runOps true (sampleInserts 21)).table 1).map Node.key =
      [sampleKey 0, sampleKey 20] ∧
    ¬ [sampleKey 20, sampleKey 0].Sublist
      ((bucket (runOps true (sampleInserts 21)).table 1).map Node.key) ∧
    ¬ [sampleKey 20, sampleKey 0].Sublist
      ((traverseHashTable (runOps true (sampleInserts 21))).map Prod.fst) := by
  decide

theorem traverseWith_eq_foldl {σ : Type} (callback : σ → Key → Int → σ)
    (hashtable : HashTable) (state : σ) :
    traverseWith callback hashtable state =
      (traverseHashTable hashtable).foldl (fun state pair => callback state pair.1 pair.2)
        state := by
  unfold traverseWith
  rw [foldl_flatMap_chains (fun state node => callback state node.key node.value)
    (fun i => bucket hashtable.table i), traverse_eq_map_entries, List.foldl_map]
  rfl

/-- C12. Traverse enumerates exactly the stored entries: on a reachable table
`traverseHashTable` visits the concatenation of the chains of buckets `0 .. size-1`, the
effect of the calls on any callback state is the fold over these pairs, the number of
visits is `count`, the visited keys are pairwise distinct, and `(k, v)` is
visited exactly when `getFromHashTable(k)` finds the entry with value `v`. After the
three inserts of the driver the visited pairs are key3 with 30, key1 with 10 and key2
with 20. -/
theorem C12_traverse_enumerates (charSigned : Bool) (ops : List Op) :
    traverseHashTable (runOps charSigned ops) =
      (runOps charSigned ops).table.flatten.map (fun node => (node.key, node.value)) ∧
    (∀ (callback : List (Key × Int) → Key → Int → List (Key × Int)) (state : List (Key × Int)),
      traverseWith callback (runOps charSigned ops) state =
        (traverseHashTable (runOps charSigned ops)).foldl
          (fun state pair => callback state pair.1 pair.2) state) ∧
    (runOps charSigned ops).table.length = (runOps charSigned ops).size ∧
    ((traverseHashTable (runOps charSigned ops)).length : Int) = (runOps charSigned ops).count ∧
    ((traverseHashTable (runOps charSigned ops)).map Prod.fst).Nodup ∧
    (∀ (key : Key) (value : Int),
      (key, value) ∈ traverseHashTable (runOps charSigned ops) ↔
        getFromHashTable charSigned (runOps charSigned ops) key =
          some { key := key, value := value }) ∧
    traverseHashTable (runOps charSigned mainInserts) =
      [(key3, 30), (key1, 10), (key2, 20)] ∧
    (traverseHashTable (runOps charSigned mainInserts)).Perm
      [(key1, 10), (key2, 20), (key3, 30)] := by
  have hinv := runOps_inv charSigned ops
  refine ⟨?_, fun callback state => traverseWith_eq_foldl callback _ state, hinv.2.1,
    ?_, ?_, ?_, ?_, ?_⟩
  · rw [traverse_eq_map_entries, entries_eq_flatten hinv.2.1]
  · rw [traverse_eq_map_entries, List.length_map]
    exact hinv.2.2.2.2.symm
  · rw [traverse_keys]
    exact hinv.nodup_keys
  · intro key value
    rw [traverse_eq_map_entries, hinv.get_eq_some, List.mem_map]
    constructor
    · rintro ⟨node, hm, he⟩
      have hk : node.key = key := congrArg Prod.fst he
      have hv : node.value = value := congrArg Prod.snd he
      have : node = { key := key, value := value } := by
        cases node
        simp only at hk hv
        rw [hk, hv]
      rw [← this]
      exact ⟨hm, hk⟩
    · rintro ⟨hm, _⟩
      exact ⟨_, hm, rfl⟩
  · cases charSigned <;> decide
  · cases charSigned <;> decide

/-- C13. No duplicate keys: in every table reached from `createHashTable()` by insert and
remove calls the keys of all entry nodes of all buckets are pairwise distinct, and a key
that the lookup finds has exactly one entry. -/
theorem C13_no_duplicate_keys (charSigned : Bool) (ops : List Op) :
    ((runOps charSigned ops).table.flatten.map Node.key).Nodup ∧
    (∀ key : Key, getFromHashTable charSigned (runOps charSigned ops) key ≠ none →
      ((runOps charSigned ops).table.flatten.map Node.key).count key = 1) ∧
    (∀ key : Key, getFromHashTable charSigned (runOps charSigned ops) key = none →
      ((runOps charSigned ops).table.flatten.map Node.key).count key = 0) := by
  have hinv := runOps_inv charSigned ops
  have hnd := hinv.nodup_keys
  rw [entries_eq_flatten hinv.2.1] at hnd
  refine ⟨hnd, ?_, ?_⟩
  · intro key hg
    obtain ⟨node, hnode⟩ := Option.ne_none_iff_exists'.1 hg
    obtain ⟨hm, hk⟩ := hinv.get_eq_some.1 hnode
    rw [entries_eq_flatten hinv.2.1] at hm
    exact List.count_eq_one_of_mem hnd (List.mem_map.2 ⟨node, hm, hk⟩)
  · intro key hg
    rw [List.count_eq_zero]
    intro hmem
    obtain ⟨node, hm, hk⟩ := List.mem_map.1 hmem
    rw [← entries_eq_flatten hinv.2.1] at hm
    exact hinv.get_eq_none.1 hg node hm hk

theorem C13_no_duplicate_keys_witness :
    getFromHashTable true (runOps true (sampleInserts 21)) (sampleKey 5) ≠ none ∧
    ((runOps true (sampleInserts 21)).table.flatten.map Node.key).count (sampleKey 5) = 1 :=
  have h : getFromHashTable true (runOps true (sampleInserts 21)) (sampleKey 5) ≠ none := by
    decide
  ⟨h, (C13_no_duplicate_keys true (sampleInserts 21)).2.1 (sampleKey 5) h⟩

/-- C14. Count is exact: in every reachable table `count` is the number of entry nodes in
all chains; `createHashTable` establishes this, and on a table satisfying the invariants
insert, remove and resize each leave it true. -/
theorem C14_count_exact (charSigned : Bool) (ops : List Op) :
    (runOps charSigned ops).count = ((runOps charSigned ops).table.flatten.length : Int) ∧
    createHashTable.count = (createHashTable.table.flatten.length : Int) ∧
    ∀ hashtable : HashTable, Inv charSigned hashtable →
      (∀ (key : Key) (value : Int),
        (insertIntoHashTable charSigned hashtable key value).count =
          ((insertIntoHashTable charSigned hashtable key value).table.flatten.length : Int)) ∧
      (∀ key : Key,
        (removeFromHashTable charSigned hashtable key).count =
          ((removeFromHashTable charSigned hashtable key).table.flatten.length : Int)) ∧
      (∀ new_size : Nat, 0 < new_size →
        (resizeHashTable charSigned hashtable new_size).count =
          ((resizeHashTable charSigned hashtable new_size).table.flatten.length : Int)) := by
  have key : ∀ t : HashTable, Inv charSigned t → t.count = (t.table.flatten.length : Int) := by
    intro t ht
    rw [← entries_eq_flatten ht.2.1]
    exact ht.2.2.2.2
  refine ⟨key _ (runOps_inv charSigned ops), by decide, ?_⟩
  intro hashtable hinv
  exact ⟨fun k v => key _ (insert_inv hinv k v), fun k => key _ (remove_inv hinv k),
    fun ns hns => key _ (resize_inv hinv hns)⟩

theorem C14_count_exact_witness :
    Inv true (runOps true mainInserts) ∧
    (removeFromHashTable true (runOps true mainInserts) key2).count =
      ((removeFromHashTable true (runOps true mainInserts) key2).table.flatten.length : Int) :=
  have h : Inv true (runOps true mainInserts) := by decide
  ⟨h, ((C14_count_exact true []).2.2 (runOps true mainInserts) h).2.1 key2⟩

/-- C15. Bucket placement: in every reachable table an entry stored in bucket `i` has
`i = hash(key) mod size` for the current size; and `resizeHashTable` to a positive
`new_size` leaves every entry of every table in bucket `hash(key) mod new_size`. -/
theorem C15_bucket_placement (charSigned : Bool) (ops : List Op) :
    (∀ i < (runOps charSigned ops).size, ∀ node ∈ bucket (runOps charSigned ops).table i,
      i = hash charSigned node.key % (runOps charSigned ops).size) ∧
    ∀ (hashtable : HashTable) (new_size : Nat),
      ∀ j < (resizeHashTable charSigned hashtable new_size).size,
        ∀ node ∈ bucket (resizeHashTable charSigned hashtable new_size).table j,
          j = hash charSigned node.key %
            (resizeHashTable charSigned hashtable new_size).size := by
  have hinv := runOps_inv charSigned ops
  refine ⟨fun i hi node hm => (hinv.2.2.1 i hi node hm).symm, ?_⟩
  intro hashtable new_size j hj node hm
  change j < new_size at hj
  change j = hash charSigned node.key % new_size
  rw [bucket_resize _ _ hj] at hm
  have := (List.mem_filter.1 (List.mem_reverse.1 hm)).2
  exact (of_decide_eq_true this).symm

theorem C15_bucket_placement_witness :
    (1 < (runOps true (sampleInserts 21)).size ∧
      (⟨sampleKey 0, 0⟩ : Node) ∈ bucket (runOps true (sampleInserts 21)).table 1) ∧
    1 = hash true (sampleKey 0) % (runOps true (sampleInserts 21)).size :=
  have h1 : 1 < (runOps true (sampleInserts 21)).size := by decide
  have h2 : (⟨sampleKey 0, 0⟩ : Node) ∈ bucket (runOps true (sampleInserts 21)).table 1 := by
    decide
  ⟨⟨h1, h2⟩, (C15_bucket_placement true (sampleInserts 21)).1 1 h1 _ h2⟩

/-! ## Growth policy -/

theorem runOps_load (charSigned : Bool) (ops : List Op) :
    (runOps charSigned ops).count ≤ 2 * ((runOps charSigned ops).size : Int) := by
  induction ops using List.reverseRecOn with
  | nil => cases charSigned <;> decide
  | append_singleton l op ih =>
    have hinv := runOps_inv charSigned l
    have hpos := hinv.1
    rw [runOps_snoc]
    cases op with
    | insert key value =>
      simp only [applyOp]
      cases hg : getFromHashTable charSigned (runOps charSigned l) key with
      | some node =>
        rw [insert_of_some value hg]
        exact ih
      | none =>
        obtain ⟨hc, hs⟩ := insert_absent_count_size value hg
        rw [hc, hs]
        split
        · push_cast; omega
        · omega
    | remove key =>
      simp only [applyOp]
      rw [count_remove hinv, size_remove]
      split <;> omega

/-- C16. Resize trigger: on a reachable table the insert of a key not yet stored doubles
`size` exactly when `count + 1 > 2 * size` and otherwise leaves it; the insert of a
stored key and every remove leave `size`; no call decreases it. The 20th new key in a
size-10 table does not resize, the 21st does. -/
theorem C16_resize_trigger (charSigned : Bool) (ops : List Op) (key : Key) (value : Int) :
    (getFromHashTable charSigned (runOps charSigned ops) key = none →
      ((insertIntoHashTable charSigned (runOps charSigned ops) key value).size =
          2 * (runOps charSigned ops).size ↔
        (runOps charSigned ops).count + 1 > 2 * ((runOps charSigned ops).size : Int)) ∧
      (¬ (runOps charSigned ops).count + 1 > 2 * ((runOps charSigned ops).size : Int) →
        (insertIntoHashTable charSigned (runOps charSigned ops) key value).size =
          (runOps charSigned ops).size)) ∧
    (getFromHashTable charSigned (runOps charSigned ops) key ≠ none →
      (insertIntoHashTable charSigned (runOps charSigned ops) key value).size =
        (runOps charSigned ops).size) ∧
    (removeFromHashTable charSigned (runOps charSigned ops) key).size =
      (runOps charSigned ops).size ∧
    (∀ op : Op, (runOps charSigned ops).size ≤
      (applyOp charSigned (runOps charSigned ops) op).size) ∧
    ((runOps charSigned (sampleInserts 19)).count = 19 ∧
      (runOps charSigned (sampleInserts 19)).size = 10 ∧
      getFromHashTable charSigned (runOps charSigned (sampleInserts 19)) (sampleKey 19) = none ∧
      (insertIntoHashTable charSigned (runOps charSigned (sampleInserts 19))
        (sampleKey 19) 19).size = 10) ∧
    ((runOps charSigned (sampleInserts 20)).count = 20 ∧
      (runOps charSigned (sampleInserts 20)).size = 10 ∧
      getFromHashTable charSigned (runOps charSigned (sampleInserts 20)) (sampleKey 20) = none ∧
      (insertIntoHashTable charSigned (runOps charSigned (sampleInserts 20))
        (sampleKey 20) 20).size = 20) := by
  have hinv := runOps_inv charSigned ops
  have hpos := hinv.1
  refine ⟨?_, ?_, size_remove _ _ _, ?_, ?_, ?_⟩
  · intro hg
    have hs := (insert_absent_count_size value hg).2
    by_cases hgt : (runOps charSigned ops).count + 1 > ((runOps charSigned ops).size : Int) * 2
    · rw [if_pos hgt] at hs
      refine ⟨⟨fun _ => by omega, fun _ => by omega⟩, fun hn => absurd (by omega) hn⟩
    · rw [if_neg hgt] at hs
      refine ⟨⟨fun h2 => by omega, fun h2 => absurd (by omega) hgt⟩, fun _ => hs⟩
  · intro hg
    obtain ⟨node, hnode⟩ := Option.ne_none_iff_exists'.1 hg
    rw [insert_of_some value hnode]
  · intro op
    rcases size_applyOp_cases charSigned (runOps charSigned ops) op with h | h <;> omega
  · cases charSigned <;> decide
  · cases charSigned <;> decide

theorem C16_resize_trigger_witness :
    getFromHashTable true (runOps true (sampleInserts 20)) (sampleKey 20) = none ∧
    ((insertIntoHashTable true (runOps true (sampleInserts 20)) (sampleKey 20) 20).size =
        2 * (runOps true (sampleInserts 20)).size ↔
      (runOps true (sampleInserts 20)).count + 1 >
        2 * ((runOps true (sampleInserts 20)).size : Int)) :=
  have h : getFromHashTable true (runOps true (sampleInserts 20)) (sampleKey 20) = none := by
    decide
  ⟨h, ((C16_resize_trigger true (sampleInserts 20) (sampleKey 20) 20).1 h).1⟩

/-- C17. `createHashTable` returns an empty table: `size = 10`, `count = 0`, ten buckets
all empty; every lookup returns `NULL` and the traversal visits nothing, leaving the
state of any callback as it was. -/
theorem C17_create_empty (charSigned : Bool) (key : Key) :
    createHashTable.size = 10 ∧
    createHashTable.count = 0 ∧
    createHashTable.table.length = 10 ∧
    (∀ i < 10, bucket createHashTable.table i = []) ∧
    createHashTable.table = List.replicate 10 [] ∧
    getFromHashTable charSigned createHashTable key = none ∧
    traverseHashTable createHashTable = [] ∧
    (∀ (callback : List (Key × Int) → Key → Int → List (Key × Int)) (state : List (Key × Int)),
      traverseWith callback createHashTable state = state) := by
  refine ⟨rfl, rfl, rfl, fun i _ => bucket_replicate _ _, rfl, get_create charSigned key, ?_, ?_⟩
  · decide
  · intro callback state
    rw [traverseWith_eq_foldl]
    rfl

/-- C18. Exact result of resize: for every table and `new_size > 0`, the new array has
`new_size` buckets and the chain of new bucket `j` is the reverse of the entries of the
old traversal order (old buckets `0 .. size-1`, each chain head to tail) whose
`hash(key) mod new_size` is `j`; the array is built by prepending the entries one by one
in old traversal order. -/
theorem C18_resize_exact (charSigned : Bool) (hashtable : HashTable) (new_size : Nat)
    (hpos : 0 < new_size) :
    (resizeHashTable charSigned hashtable new_size).table.length = new_size ∧
    (∀ j < new_size,
      bucket (resizeHashTable charSigned hashtable new_size).table j =
        ((entries hashtable).filter
          (fun node => decide (hash charSigned node.key % new_size = j))).reverse) ∧
    (resizeHashTable charSigned hashtable new_size).table =
      (entries hashtable).foldl (moveNode charSigned new_size) (List.replicate new_size []) ∧
    (∀ (new_table : List (List Node)) (node : Node), new_table.length = new_size →
      bucket (moveNode charSigned new_size new_table node)
          (hash charSigned node.key % new_size) =
        node :: bucket new_table (hash charSigned node.key % new_size)) := by
  refine ⟨length_resize_table _ _ _, fun j hj => bucket_resize _ _ hj,
    resize_table_eq _ _ _, ?_⟩
  intro new_table node hlen
  unfold moveNode
  exact bucket_set_self _ (by rw [hlen]; exact Nat.mod_lt _ hpos)

theorem C18_resize_exact_witness :
    0 < 20 ∧
    bucket (resizeHashTable true (runOps true (sampleInserts 20)) 20).table 1 =
      ((entries (runOps true (sampleInserts 20))).filter
        (fun node => decide (hash true node.key % 20 = 1))).reverse :=
  ⟨by decide, (C18_resize_exact true (runOps true (sampleInserts 20)) 20 (by decide)).2.1 1
    (by decide)⟩

/-- C19. Load factor bound: in every table reached from `createHashTable()` by insert and
remove calls `count ≤ 2 * size`; when an insert of a new key exceeds the bound, the one
doubling it performs restores it. -/
theorem C19_load_factor (charSigned : Bool) (ops : List Op) :
    (runOps charSigned ops).count ≤ 2 * ((runOps charSigned ops).size : Int) ∧
    ∀ (key : Key) (value : Int),
      getFromHashTable charSigned (runOps charSigned ops) key = none →
      (runOps charSigned ops).count + 1 > 2 * ((runOps charSigned ops).size : Int) →
      (insertIntoHashTable charSigned (runOps charSigned ops) key value).size =
        2 * (runOps charSigned ops).size ∧
      (insertIntoHashTable charSigned (runOps charSigned ops) key value).count ≤
        2 * ((insertIntoHashTable charSigned (runOps charSigned ops) key value).size : Int) := by
  refine ⟨runOps_load charSigned ops, ?_⟩
  intro key value hg hgt
  have hs := (insert_absent_count_size value hg).2
  rw [if_pos (by omega)] at hs
  refine ⟨by omega, ?_⟩
  have := runOps_load charSigned (ops ++ [Op.insert key value])
  rw [runOps_snoc] at this
  exact this

theorem C19_load_factor_witness :
    getFromHashTable true (runOps true (sampleInserts 20)) (sampleKey 20) = none ∧
    (runOps true (sampleInserts 20)).count + 1 >
      2 * ((runOps true (sampleInserts 20)).size : Int) ∧
    (insertIntoHashTable true (runOps true (sampleInserts 20)) (sampleKey 20) 20).count ≤
      2 * ((insertIntoHashTable true (runOps true (sampleInserts 20))
        (sampleKey 20) 20).size : Int) :=
  have h1 : getFromHashTable true (runOps true (sampleInserts 20)) (sampleKey 20) = none := by
    decide
  have h2 : (runOps true (sampleInserts 20)).count + 1 >
      2 * ((runOps true (sampleInserts 20)).size : Int) := by decide
  ⟨h1, h2, ((C19_load_factor true (sampleInserts 20)).2 (sampleKey 20) 20 h1 h2).2⟩

/-- C20. Bucket index is always defined and in range: in every reachable table
`size = 10 * 2^j` for some `j`, so `size > 0`, and the bucket array has `size` slots; the
index `hash(key) mod size` of get, insert and remove is below the array length, and so is
the index `hash(key) mod (2 * size)` of the resize an insert performs, at every point of
its loop. -/
theorem C20_index_in_range (charSigned : Bool) (ops : List Op) :
    (∃ j : Nat, (runOps charSigned ops).size = 10 * 2 ^ j) ∧
    0 < (runOps charSigned ops).size ∧
    (runOps charSigned ops).table.length = (runOps charSigned ops).size ∧
    (∀ key : Key, hash charSigned key % (runOps charSigned ops).size <
      (runOps charSigned ops).table.length) ∧
    (∀ (key : Key) (moved : List Node),
      hash charSigned key % ((runOps charSigned ops).size * 2) <
        (moved.foldl (moveNode charSigned ((runOps charSigned ops).size * 2))
          (List.replicate ((runOps charSigned ops).size * 2) [])).length) := by
  have hinv := runOps_inv charSigned ops
  refine ⟨runOps_size_pow charSigned ops, hinv.1, hinv.2.1, hinv.index_lt, ?_⟩
  intro key moved
  rw [length_foldl_moveNode, List.length_replicate]
  exact Nat.mod_lt _ (Nat.mul_pos hinv.1 (by decide))

/-! ## Chain order and resizes -/

theorem flatMap_range_all_nil {α : Type} (g : Nat → List α) (n : Nat)
    (h : ∀ i < n, g i = []) : (List.range n).flatMap g = [] := by
  induction n with
  | zero => rfl
  | succ n ih =>
    rw [List.range_succ, List.flatMap_append, ih (fun i hi => h i (Nat.lt_succ_of_lt hi))]
    simp [h n (Nat.lt_succ_self n)]

theorem flatMap_range_single {α : Type} (g : Nat → List α) (n i0 : Nat) (hi0 : i0 < n)
    (h : ∀ i < n, i ≠ i0 → g i = []) : (List.range n).flatMap g = g i0 := by
  induction n with
  | zero => cases hi0
  | succ n ih =>
    rw [List.range_succ, List.flatMap_append]
    by_cases hlast : i0 = n
    · subst hlast
      rw [flatMap_range_all_nil g i0 (fun i hi => h i (Nat.lt_succ_of_lt hi) (Nat.ne_of_lt hi))]
      simp
    · have hlt : i0 < n := by omega
      rw [ih hlt (fun i hi hne => h i (Nat.lt_succ_of_lt hi) hne)]
      simp [h n (Nat.lt_succ_self n) (fun e => hlast e.symm)]

theorem chainOrder_cons_zero (key : Key) (ages : List (Key × Nat)) :
    chainOrder ((key, 0) :: ages) = key :: chainOrder ages := by
  unfold chainOrder
  simp [List.filter_cons]

theorem chainOrder_map_succ (ages : List (Key × Nat)) :
    chainOrder (ages.map (fun entry => (entry.1, entry.2 + 1))) = (chainOrder ages).reverse := by
  unfold chainOrder
  have h0 : (ages.map (fun entry : Key × Nat => (entry.1, entry.2 + 1))).filter
        (fun entry => decide (entry.2 % 2 = 0)) =
      (ages.filter (fun entry => decide (entry.2 % 2 = 1))).map
        (fun entry => (entry.1, entry.2 + 1)) := by
    rw [List.filter_map]
    congr 1
    apply List.filter_congr
    intro entry _
    simp only [Function.comp_apply]
    have : ((entry.2 + 1) % 2 = 0) ↔ (entry.2 % 2 = 1) := by omega
    exact decide_eq_decide.2 this
  have h1 : (ages.map (fun entry : Key × Nat => (entry.1, entry.2 + 1))).filter
        (fun entry => decide (entry.2 % 2 = 1)) =
      (ages.filter (fun entry => decide (entry.2 % 2 = 0))).map
        (fun entry => (entry.1, entry.2 + 1)) := by
    rw [List.filter_map]
    congr 1
    apply List.filter_congr
    intro entry _
    simp only [Function.comp_apply]
    have : ((entry.2 + 1) % 2 = 1) ↔ (entry.2 % 2 = 0) := by omega
    exact decide_eq_decide.2 this
  rw [h0, h1, List.map_map, List.map_map, List.reverse_append, List.reverse_reverse]
  rfl

theorem chainOrder_filter (key : Key) (ages : List (Key × Nat)) :
    chainOrder (ages.filter (fun entry => !decide (entry.1 = key))) =
      (chainOrder ages).filter (fun k => !decide (k = key)) := by
  unfold chainOrder
  have hcomm : ∀ (p : Key × Nat → Bool),
      ((ages.filter (fun entry => !decide (entry.1 = key))).filter p).map Prod.fst =
        ((ages.filter p).map Prod.fst).filter (fun k => !decide (k = key)) := by
    intro p
    rw [List.filter_map, List.filter_filter, List.filter_filter]
    congr 1
    apply List.filter_congr
    intro entry _
    simp only [Function.comp_apply]
    exact Bool.and_comm _ _
  rw [hcomm, hcomm, List.filter_append, List.filter_reverse]

theorem ages_fold_snoc (charSigned : Bool) (ops : List Op) (op : Op) :
    (ops ++ [op]).foldl (stepAges charSigned) (createHashTable, []) =
      stepAges charSigned (ops.foldl (stepAges charSigned) (createHashTable, [])) op := by
  simp [List.foldl_append]

theorem ages_fold_table (charSigned : Bool) (ops : List Op) :
    (ops.foldl (stepAges charSigned) (createHashTable, [])).1 = runOps charSigned ops := by
  induction ops using List.reverseRecOn with
  | nil => rfl
  | append_singleton l op ih =>
    rw [ages_fold_snoc, runOps_snoc, ← ih]
    cases op <;> rfl

theorem entryAges_insert (charSigned : Bool) (ops : List Op) (key : Key) (value : Int) :
    entryAges charSigned (ops ++ [Op.insert key value]) =
      if (insertIntoHashTable charSigned (runOps charSigned ops) key value).size =
          (runOps charSigned ops).size then
        (if getFromHashTable charSigned (runOps charSigned ops) key = none then
          (key, 0) :: entryAges charSigned ops
        else entryAges charSigned ops)
      else
        (if getFromHashTable charSigned (runOps charSigned ops) key = none then
          (key, 0) :: entryAges charSigned ops
        else entryAges charSigned ops).map (fun entry => (entry.1, entry.2 + 1)) := by
  unfold entryAges
  rw [ages_fold_snoc]
  simp only [stepAges, ages_fold_table]

theorem entryAges_remove (charSigned : Bool) (ops : List Op) (key : Key) :
    entryAges charSigned (ops ++ [Op.remove key]) =
      (entryAges charSigned ops).filter (fun entry => !decide (entry.1 = key)) := by
  unfold entryAges
  rw [ages_fold_snoc]
  simp only [stepAges]

theorem entryAges_keys (charSigned : Bool) (ops : List Op) :
    (entryAges charSigned ops).map Prod.fst = creationOrder charSigned ops := by
  induction ops using List.reverseRecOn with
  | nil => rfl
  | append_singleton l op ih =>
    cases op with
    | insert key value =>
      rw [entryAges_insert, creationOrder_insert, ← ih]
      split <;> split <;> simp [List.map_map, Function.comp_def]
    | remove key =>
      rw [entryAges_remove, creationOrder_remove, ← ih, List.filter_map]
      rfl

theorem chains_update {charSigned : Bool} {hashtable : HashTable} (order : List Key)
    (hchains : ∀ i < hashtable.size, (bucket hashtable.table i).map Node.key =
      order.filter (fun k => decide (hash charSigned k % hashtable.size = i)))
    (key : Key) (value : Int) (i : Nat) (hi : i < hashtable.size) :
    (bucket (hashtable.table.set (hash charSigned key % hashtable.size)
        (setValue key value (bucket hashtable.table (hash charSigned key % hashtable.size))))
      i).map Node.key =
      order.filter (fun k => decide (hash charSigned k % hashtable.size = i)) := by
  rw [bucket_set]
  split
  · next hij => rw [map_key_setValue, hij.1]; exact hchains i hi
  · exact hchains i hi

theorem chains_linkNewNode {charSigned : Bool} {hashtable : HashTable}
    (hinv : Inv charSigned hashtable) (order : List Key)
    (hchains : ∀ i < hashtable.size, (bucket hashtable.table i).map Node.key =
      order.filter (fun k => decide (hash charSigned k % hashtable.size = i)))
    (key : Key) (value : Int) (i : Nat)
    (hi : i < (linkNewNode charSigned hashtable key value).size) :
    (bucket (linkNewNode charSigned hashtable key value).table i).map Node.key =
      (key :: order).filter
        (fun k => decide (hash charSigned k %
          (linkNewNode charSigned hashtable key value).size = i)) := by
  change i < hashtable.size at hi
  unfold linkNewNode
  simp only
  rw [bucket_set]
  by_cases hk : hash charSigned key % hashtable.size = i
  · rw [if_pos ⟨hk, hinv.index_lt key⟩, List.map_cons, List.filter_cons, hk]
    simp only [decide_True, if_true]
    rw [hchains i hi]
  · rw [if_neg (fun hc => hk hc.1), List.filter_cons]
    simp only [hk, decide_False, Bool.false_eq_true, if_false]
    exact hchains i hi

theorem chains_remove {charSigned : Bool} {hashtable : HashTable}
    (hinv : Inv charSigned hashtable) (order : List Key)
    (hchains : ∀ i < hashtable.size, (bucket hashtable.table i).map Node.key =
      order.filter (fun k => decide (hash charSigned k % hashtable.size = i)))
    (key : Key) (i : Nat) (hi : i < hashtable.size) :
    (bucket (removeFromHashTable charSigned hashtable key).table i).map Node.key =
      (order.filter (fun k => !decide (k = key))).filter
        (fun k => decide (hash charSigned k % hashtable.size = i)) := by
  rw [remove_table_eq hinv key, bucket_map _ (by rfl)]
  have hmk : ((bucket hashtable.table i).filter (fun node => !decide (node.key = key))).map
      Node.key = ((bucket hashtable.table i).map Node.key).filter (fun k => !decide (k = key)) := by
    rw [List.filter_map]
    rfl
  rw [hmk, hchains i hi, List.filter_filter, List.filter_filter]
  apply List.filter_congr
  intro k _
  exact Bool.and_comm _ _

theorem filter_keys_entries_double {charSigned : Bool} {hashtable : HashTable}
    (hinv : Inv charSigned hashtable) (order : List Key)
    (hchains : ∀ i < hashtable.size, (bucket hashtable.table i).map Node.key =
      order.filter (fun k => decide (hash charSigned k % hashtable.size = i)))
    (j : Nat) :
    ((entries hashtable).map Node.key).filter
        (fun k => decide (hash charSigned k % (hashtable.size * 2) = j)) =
      order.filter (fun k => decide (hash charSigned k % (hashtable.size * 2) = j)) := by
  have hpos := hinv.1
  unfold entries
  rw [List.map_flatMap, List.filter_flatMap]
  have hcongr : (List.range hashtable.size).flatMap
        (fun i => ((bucket hashtable.table i).map Node.key).filter
          (fun k => decide (hash charSigned k % (hashtable.size * 2) = j))) =
      (List.range hashtable.size).flatMap
        (fun i => (order.filter (fun k => decide (hash charSigned k % hashtable.size = i))).filter
          (fun k => decide (hash charSigned k % (hashtable.size * 2) = j))) := by
    apply List.flatMap_congr
    intro i hi
    rw [hchains i (List.mem_range.1 hi)]
  rw [hcongr]
  have hmod : ∀ k : Key, hash charSigned k % (hashtable.size * 2) = j →
      hash charSigned k % hashtable.size = j % hashtable.size := by
    intro k hk
    rw [← hk, Nat.mod_mul_right_mod]
  rw [flatMap_range_single _ hashtable.size (j % hashtable.size) (Nat.mod_lt _ hpos)]
  · rw [List.filter_filter]
    apply List.filter_congr
    intro k _
    by_cases hk : hash charSigned k % (hashtable.size * 2) = j
    · simp [hk, hmod k hk]
    · simp [hk]
  · intro i _ hne
    rw [List.filter_eq_nil_iff]
    intro k hk hj
    have h1 := of_decide_eq_true (List.mem_filter.1 hk).2
    have h2 := hmod k (of_decide_eq_true hj)
    exact hne (h1.symm.trans h2)

theorem chains_resize_double {charSigned : Bool} {hashtable : HashTable}
    (hinv : Inv charSigned hashtable) (order : List Key)
    (hchains : ∀ i < hashtable.size, (bucket hashtable.table i).map Node.key =
      order.filter (fun k => decide (hash charSigned k % hashtable.size = i)))
    (j : Nat) (hj : j < hashtable.size * 2) :
    (bucket (resizeHashTable charSigned hashtable (hashtable.size * 2)).table j).map Node.key =
      order.reverse.filter
        (fun k => decide (hash charSigned k % (hashtable.size * 2) = j)) := by
  rw [bucket_resize _ _ hj, List.map_reverse, List.filter_reverse,
    ← filter_keys_entries_double hinv order hchains j, List.filter_map]
  rfl

/-- In every reachable table the keys of each chain are the live keys of its bucket in
the order `chainOrder` gives them. -/
theorem chain_keys_by_age (charSigned : Bool) (ops : List Op) (i : Nat)
    (hi : i < (runOps charSigned ops).size) :
    (bucket (runOps charSigned ops).table i).map Node.key =
      (chainOrder (entryAges charSigned ops)).filter
        (fun k => decide (hash charSigned k % (runOps charSigned ops).size = i)) := by
  induction ops using List.reverseRecOn generalizing i with
  | nil =>
    have : bucket (runOps charSigned []).table i = [] := bucket_replicate _ _
    rw [this]
    rfl
  | append_singleton l op ih =>
    have hinv := runOps_inv charSigned l
    have hpos := hinv.1
    cases op with
    | insert key value =>
      rw [entryAges_insert]
      rw [runOps_snoc] at hi ⊢
      simp only [applyOp] at hi ⊢
      cases hg : getFromHashTable charSigned (runOps charSigned l) key with
      | some node =>
        have he := insert_of_some value hg
        simp only [he, reduceCtorEq, if_false, if_true] at hi ⊢
        exact chains_update _ ih key value i hi
      | none =>
        have he := insert_of_none value hg
        by_cases hgt : (runOps charSigned l).count + 1 > ((runOps charSigned l).size : Int) * 2
        · rw [if_pos hgt] at he
          have hne : ¬ (resizeHashTable charSigned
              (linkNewNode charSigned (runOps charSigned l) key value)
              ((runOps charSigned l).size * 2)).size = (runOps charSigned l).size := by
            change ¬ (runOps charSigned l).size * 2 = (runOps charSigned l).size
            omega
          simp only [he, hne, if_false, if_true] at hi ⊢
          rw [chainOrder_map_succ, chainOrder_cons_zero]
          exact chains_resize_double (linkNewNode_inv hinv value hg) _
            (fun i' hi' => chains_linkNewNode hinv _ ih key value i' hi') i hi
        · rw [if_neg hgt] at he
          have hsz : (linkNewNode charSigned (runOps charSigned l) key value).size =
              (runOps charSigned l).size := rfl
          simp only [he, hsz, if_true] at hi ⊢
          rw [chainOrder_cons_zero]
          have := chains_linkNewNode hinv _ ih key value i (by rw [hsz]; exact hi)
          rw [hsz] at this
          exact this
    | remove key =>
      rw [entryAges_remove, chainOrder_filter]
      rw [runOps_snoc] at hi ⊢
      simp only [applyOp, size_remove] at hi ⊢
      exact chains_remove hinv _ ih key i hi

theorem pair_in_chainOrder {ages : List (Key × Nat)} {a b : Key} {ra rb : Nat}
    (h : [(a, ra), (b, rb)].Sublist ages) :
    (ra % 2 = 0 → [a, b].Sublist (chainOrder ages)) ∧
    (ra % 2 = 1 → [b, a].Sublist (chainOrder ages)) := by
  have hma : (a, ra) ∈ ages := h.subset (by simp)
  have hmb : (b, rb) ∈ ages := h.subset (by simp)
  have hmem : ∀ (k : Key) (r m : Nat), (k, r) ∈ ages → r % 2 = m →
      k ∈ (ages.filter (fun entry => decide (entry.2 % 2 = m))).map Prod.fst := by
    intro k r m hk hr
    exact List.mem_map.2 ⟨(k, r), List.mem_filter.2 ⟨hk, decide_eq_true hr⟩, rfl⟩
  have hpair : ∀ m : Nat, ra % 2 = m → rb % 2 = m →
      [a, b].Sublist ((ages.filter (fun entry => decide (entry.2 % 2 = m))).map Prod.fst) := by
    intro m h1 h2
    have := (List.Sublist.filter (fun entry : Key × Nat => decide (entry.2 % 2 = m)) h).map
      Prod.fst
    simpa [List.filter_cons, h1, h2] using this
  unfold chainOrder
  constructor
  · intro hra
    rcases Nat.mod_two_eq_zero_or_one rb with hrb | hrb
    · exact (hpair 0 hra hrb).trans (List.sublist_append_left _ _)
    · have h1 := List.singleton_sublist.2 (hmem a ra 0 hma hra)
      have h2 := List.singleton_sublist.2 (List.mem_reverse.2 (hmem b rb 1 hmb hrb))
      exact h1.append h2
  · intro hra
    rcases Nat.mod_two_eq_zero_or_one rb with hrb | hrb
    · have h1 := List.singleton_sublist.2 (hmem b rb 0 hmb hrb)
      have h2 := List.singleton_sublist.2 (List.mem_reverse.2 (hmem a ra 1 hma hra))
      exact h1.append h2
    · have := (hpair 1 hra hrb).reverse
      exact this.trans (List.sublist_append_right _ _)

theorem not_sublist_swap {a b : Key} {keys : List Key} (hnd : keys.Nodup)
    (h : [b, a].Sublist keys) : ¬ [a, b].Sublist keys := by
  induction keys with
  | nil => cases h
  | cons x rest ih =>
    rw [List.nodup_cons] at hnd
    intro h2
    cases h with
    | cons _ h1 =>
      cases h2 with
      | cons _ h3 => exact ih hnd.2 h1 h3
      | cons₂ _ h3 => exact hnd.1 (h1.subset (by simp))
    | cons₂ _ h1 =>
      cases h2 with
      | cons _ h3 => exact hnd.1 (h3.subset (by simp))
      | cons₂ _ h3 => exact hnd.1 (h1.subset (by simp))

/-- C11, as the code has it. In every table reached from `createHashTable()` by insert
and remove calls, take two live keys of one bucket and count the resizes performed since
the later created of the two entries was created. When that number is even, in particular
when the entry was created after the last resize or no resize has happened, the later
created key comes earlier in the chain and in the traversal; when it is odd it comes
later, because each resize reverses the chains. Each chain lists the live keys of its
bucket in the order `chainOrder` gives, and while the table has its initial size that is
most recently created first. -/
theorem C11_chain_order_by_resize_parity (charSigned : Bool) (ops : List Op) :
    (entryAges charSigned ops).map Prod.fst = creationOrder charSigned ops ∧
    (∀ i < (runOps charSigned ops).size,
      (bucket (runOps charSigned ops).table i).map Node.key =
        (chainOrder (entryAges charSigned ops)).filter
          (fun k => decide (hash charSigned k % (runOps charSigned ops).size = i))) ∧
    (∀ (a b : Key) (ra rb : Nat), [(a, ra), (b, rb)].Sublist (entryAges charSigned ops) →
      hash charSigned a % (runOps charSigned ops).size =
        hash charSigned b % (runOps charSigned ops).size →
      (ra % 2 = 0 →
        [a, b].Sublist
          ((bucket (runOps charSigned ops).table
            (hash charSigned a % (runOps charSigned ops).size)).map Node.key) ∧
        [a, b].Sublist ((traverseHashTable (runOps charSigned ops)).map Prod.fst) ∧
        ¬ [b, a].Sublist
          ((bucket (runOps charSigned ops).table
            (hash charSigned a % (runOps charSigned ops).size)).map Node.key) ∧
        ¬ [b, a].Sublist ((traverseHashTable (runOps charSigned ops)).map Prod.fst)) ∧
      (ra % 2 = 1 →
        [b, a].Sublist
          ((bucket (runOps charSigned ops).table
            (hash charSigned a % (runOps charSigned ops).size)).map Node.key) ∧
        [b, a].Sublist ((traverseHashTable (runOps charSigned ops)).map Prod.fst) ∧
        ¬ [a, b].Sublist
          ((bucket (runOps charSigned ops).table
            (hash charSigned a % (runOps charSigned ops).size)).map Node.key) ∧
        ¬ [a, b].Sublist ((traverseHashTable (runOps charSigned ops)).map Prod.fst))) ∧
    ((runOps charSigned ops).size = INITIAL_SIZE →
      (∀ i < (runOps charSigned ops).size,
        (bucket (runOps charSigned ops).table i).map Node.key =
          (creationOrder charSigned ops).filter
            (fun k => decide (hash charSigned k % (runOps charSigned ops).size = i))) ∧
      ∀ a b : Key, [a, b].Sublist (creationOrder charSigned ops) →
        hash charSigned a % (runOps charSigned ops).size =
          hash charSigned b % (runOps charSigned ops).size →
        [a, b].Sublist
          ((bucket (runOps charSigned ops).table
            (hash charSigned a % (runOps charSigned ops).size)).map Node.key) ∧
        [a, b].Sublist ((traverseHashTable (runOps charSigned ops)).map Prod.fst)) := by
  have hinv := runOps_inv charSigned ops
  refine ⟨entryAges_keys charSigned ops, fun i hi => chain_keys_by_age charSigned ops i hi,
    ?_, chain_order_before_resize charSigned ops⟩
  intro a b ra rb hab hsame
  have hidx : hash charSigned a % (runOps charSigned ops).size < (runOps charSigned ops).size :=
    Nat.mod_lt _ hinv.1
  have hchain := chain_keys_by_age charSigned ops _ hidx
  have hsubtrav : ((bucket (runOps charSigned ops).table
        (hash charSigned a % (runOps charSigned ops).size)).map Node.key).Sublist
      ((traverseHashTable (runOps charSigned ops)).map Prod.fst) := by
    rw [traverse_keys, entries_eq_flatten hinv.2.1]
    exact (bucket_sublist_flatten _ _).map _
  have hndtrav : ((traverseHashTable (runOps charSigned ops)).map Prod.fst).Nodup := by
    rw [traverse_keys]
    exact hinv.nodup_keys
  have hndchain := hsubtrav.nodup hndtrav
  have hfilter : ∀ x y : Key, hash charSigned x % (runOps charSigned ops).size =
        hash charSigned a % (runOps charSigned ops).size →
      hash charSigned y % (runOps charSigned ops).size =
        hash charSigned a % (runOps charSigned ops).size →
      [x, y].Sublist (chainOrder (entryAges charSigned ops)) →
      [x, y].Sublist ((bucket (runOps charSigned ops).table
        (hash charSigned a % (runOps charSigned ops).size)).map Node.key) := by
    intro x y hx hy hxy
    rw [hchain]
    have := List.Sublist.filter
      (fun k => decide (hash charSigned k % (runOps charSigned ops).size =
        hash charSigned a % (runOps charSigned ops).size)) hxy
    simpa [List.filter_cons, hx, hy] using this
  obtain ⟨heven, hodd⟩ := pair_in_chainOrder hab
  constructor
  · intro hra
    have h1 := hfilter a b rfl hsame.symm (heven hra)
    have h2 := h1.trans hsubtrav
    exact ⟨h1, h2, not_sublist_swap hndchain h1, not_sublist_swap hndtrav h2⟩
  · intro hra
    have h1 := hfilter b a hsame.symm rfl (hodd hra)
    have h2 := h1.trans hsubtrav
    exact ⟨h1, h2, not_sublist_swap hndchain h1, not_sublist_swap hndtrav h2⟩

theorem C11_chain_order_by_resize_parity_witness :
    ([(sampleKey 40, 0), (sampleKey 20, 1)].Sublist (entryAges true regrownOps) ∧
      hash true (sampleKey 40) % (runOps true regrownOps).size =
        hash true (sampleKey 20) % (runOps true regrownOps).size ∧
      [sampleKey 40, sampleKey 20].Sublist
        ((bucket (runOps true regrownOps).table
          (hash true (sampleKey 40) % (runOps true regrownOps).size)).map Node.key)) ∧
    ([(sampleKey 20, 1), (sampleKey 0, 1)].Sublist (entryAges true regrownOps) ∧
      hash true (sampleKey 20) % (runOps true regrownOps).size =
        hash true (sampleKey 0) % (runOps true regrownOps).size ∧
      [sampleKey 0, sampleKey 20].Sublist
        ((bucket (runOps true regrownOps).table
          (hash true (sampleKey 20) % (runOps true regrownOps).size)).map Node.key)) ∧
    (bucket (runOps true regrownOps).table 1).map Node.key =
      [sampleKey 40, sampleKey 0, sampleKey 20] :=
  have h1 : [(sampleKey 40, 0), (sampleKey 20, 1)].Sublist (entryAges true regrownOps) := by
    decide
  have e1 : hash true (sampleKey 40) % (runOps true regrownOps).size =
      hash true (sampleKey 20) % (runOps true regrownOps).size := by decide
  have h2 : [(sampleKey 20, 1), (sampleKey 0, 1)].Sublist (entryAges true regrownOps) := by
    decide
  have e2 : hash true (sampleKey 20) % (runOps true regrownOps).size =
      hash true (sampleKey 0) % (runOps true regrownOps).size := by decide
  ⟨⟨h1, e1, (((C11_chain_order_by_resize_parity true regrownOps).2.2.1
      (sampleKey 40) (sampleKey 20) 0 1 h1 e1).1 (by decide)).1⟩,
    ⟨h2, e2, (((C11_chain_order_by_resize_parity true regrownOps).2.2.1
      (sampleKey 20) (sampleKey 0) 1 1 h2 e2).2 (by decide)).1⟩,
    by decide⟩

end CHashTable
